import Mathlib

/-!
Shallow embedding of the `tcow` layered copy-on-write container core
(`src/lib.rs` and the `compact`/`verify` commands of `src/main.rs`).

Paths are modelled as `List Char` (Rust `String` restricted to the
character level), byte payloads as `List Nat`, and the per-layer
`HashMap<String, RawEntry>` as an association list with unique keys
(the insertion function removes any previous binding, so maps built by
the embedded code always have pairwise distinct keys).
-/

namespace Tcow

/-- A virtual path, as a list of characters. -/
abbrev Path := List Char

/-- `normalize_path` from `src/lib.rs`: strip all leading `'/'`
characters (Rust `trim_start_matches('/')`). -/
def normalize_path (p : Path) : Path := p.dropWhile (fun c => c = '/')

/-- Split a path at its last `'/'`: returns `some (before, after)`
where neither part contains the splitting slash, or `none` when the
path has no `'/'` at all.  This is the common core of Rust's
`rfind('/')` slicing and `split('/').next_back()`. -/
def lastSlashSplit : Path → Option (Path × Path)
  | [] => none
  | c :: rest =>
    match lastSlashSplit rest with
    | some pr => some (c :: pr.1, pr.2)
    | none => if c = '/' then some ([], rest) else none

/-- The basename of a path: the part after the last `'/'`, or the
whole path when it has none (Rust `path.split('/').next_back()`). -/
def basename (p : Path) : Path :=
  match lastSlashSplit p with
  | some pr => pr.2
  | none => p

/-- Rust `str::starts_with`: `startsWith pat s` is true when `pat` is
an initial segment of `s`. -/
def startsWith : Path → Path → Bool
  | [], _ => true
  | _ :: _, [] => false
  | c :: cs, d :: ds => c = d && startsWith cs ds

/-- The whiteout marker `".wh."`. -/
def whp : Path := ['.', 'w', 'h', '.']

/-- `to_whiteout_tar_path` from `src/lib.rs`:
`"data/records.db"` becomes `"data/.wh.records.db"`. -/
def to_whiteout_tar_path (c : Path) : Path :=
  match lastSlashSplit c with
  | some pr => pr.1 ++ '/' :: (whp ++ pr.2)
  | none => whp ++ c

/-- `from_whiteout_tar_path` from `src/lib.rs`:
`"data/.wh.records.db"` becomes `some "data/records.db"`; names whose
basename does not start with `".wh."`, or starts with the reserved
sentinel `".wh..wh."`, give `none`. -/
def from_whiteout_tar_path (path : Path) : Option Path :=
  let filename := basename path
  if startsWith whp filename && !(startsWith (whp ++ whp) filename) then
    match lastSlashSplit path with
    | some pr => some (pr.1 ++ '/' :: filename.drop 4)
    | none => some (filename.drop 4)
  else none

/-! ### Elementary facts about the path helpers -/

theorem lastSlashSplit_eq_none {s : Path} (h : '/' ∉ s) :
    lastSlashSplit s = none := by
  induction s with
  | nil => rfl
  | cons c rest ih =>
    have hc : c ≠ '/' := fun hc => h (hc ▸ List.mem_cons_self c rest)
    have hr : '/' ∉ rest := fun hm => h (List.mem_cons_of_mem c hm)
    simp [lastSlashSplit, ih hr, hc]

theorem lastSlashSplit_append {a b : Path} (h : '/' ∉ b) :
    lastSlashSplit (a ++ '/' :: b) = some (a, b) := by
  induction a with
  | nil => simp [lastSlashSplit, lastSlashSplit_eq_none h]
  | cons c a ih => simp [lastSlashSplit, ih]

theorem lastSlashSplit_ne_none_of_mem {s : Path} (h : '/' ∈ s) :
    lastSlashSplit s ≠ none := by
  induction s with
  | nil => simp at h
  | cons c rest ih =>
    simp only [lastSlashSplit]
    cases hr : lastSlashSplit rest with
    | some pr => simp
    | none =>
      rcases List.mem_cons.mp h with h' | h'
      · simp [← h']
      · exact absurd hr (ih h')

theorem lastSlashSplit_some {s pre base : Path}
    (h : lastSlashSplit s = some (pre, base)) :
    s = pre ++ '/' :: base ∧ '/' ∉ base := by
  induction s generalizing pre base with
  | nil => simp [lastSlashSplit] at h
  | cons c rest ih =>
    simp only [lastSlashSplit] at h
    cases hr : lastSlashSplit rest with
    | some pr =>
      rw [hr] at h
      have h1 : c :: pr.1 = pre := by simpa using congrArg (·.1) (Option.some.inj h)
      have h2 : pr.2 = base := by simpa using congrArg (·.2) (Option.some.inj h)
      obtain ⟨hs, hb⟩ := ih (show lastSlashSplit rest = some (pr.1, pr.2) by rw [hr])
      subst h2
      rw [← h1]
      exact ⟨by simp [hs], hb⟩
    | none =>
      rw [hr] at h
      by_cases hc : c = '/'
      · simp only [hc, if_pos rfl] at h
        have h1 : ([] : Path) = pre := by simpa using congrArg (·.1) (Option.some.inj h)
        have h2 : rest = base := by simpa using congrArg (·.2) (Option.some.inj h)
        subst h2
        rw [← h1]
        refine ⟨by simp [hc], ?_⟩
        intro hm
        exact lastSlashSplit_ne_none_of_mem hm hr
      · simp [hc] at h

theorem startsWith_append_self (a b : Path) : startsWith a (a ++ b) = true := by
  induction a with
  | nil => rfl
  | cons c cs ih => simp [startsWith, ih]

theorem startsWith_append_cancel (a u v : Path) :
    startsWith (a ++ u) (a ++ v) = startsWith u v := by
  induction a with
  | nil => rfl
  | cons c cs ih => simp [startsWith, ih]

theorem startsWith_eq_append {pat s : Path} (h : startsWith pat s = true) :
    s = pat ++ s.drop pat.length := by
  induction pat generalizing s with
  | nil => simp
  | cons c cs ih =>
    cases s with
    | nil => simp [startsWith] at h
    | cons d ds =>
      simp only [startsWith, Bool.and_eq_true, decide_eq_true_eq] at h
      obtain ⟨h1, h2⟩ := h
      simpa [h1] using ih h2

theorem startsWith_of_startsWith_append {a u s : Path}
    (h : startsWith (a ++ u) s = true) : startsWith a s = true := by
  induction a generalizing s with
  | nil => rfl
  | cons c cs ih =>
    cases s with
    | nil => simp [startsWith] at h
    | cons d ds =>
      simp only [startsWith, Bool.and_eq_true] at h ⊢
      exact ⟨h.1, ih h.2⟩

theorem slash_not_mem_whp : '/' ∉ whp := by decide

theorem basename_no_slash (p : Path) : '/' ∉ basename p := by
  unfold basename
  cases h : lastSlashSplit p with
  | some pr =>
    rcases pr with ⟨pre, base⟩
    exact (lastSlashSplit_some h).2
  | none => exact fun hm => lastSlashSplit_ne_none_of_mem hm h

/-! ### Whiteout-name roundtrip and classification -/

theorem normalize_path_eq_self {p : Path} (h : ∀ c, p.head? = some c → c ≠ '/') :
    normalize_path p = p := by
  cases p with
  | nil => rfl
  | cons c rest =>
    have : c ≠ '/' := h c rfl
    simp [normalize_path, List.dropWhile_cons, this]

theorem length_dropWhile_le (f : Char → Bool) (l : List Char) :
    (l.dropWhile f).length ≤ l.length := by
  induction l with
  | nil => simp
  | cons c rest ih =>
    by_cases h : f c
    · rw [List.dropWhile_cons, if_pos h]
      exact Nat.le_trans ih (Nat.le_succ _)
    · rw [List.dropWhile_cons, if_neg h]

theorem head_ne_slash_of_normalize_path {p : Path} (h : normalize_path p = p) :
    ∀ c, p.head? = some c → c ≠ '/' := by
  intro c hc he
  cases p with
  | nil => simp at hc
  | cons d rest =>
    have hd : d = c := by simpa using hc
    subst hd
    subst he
    simp only [normalize_path, List.dropWhile_cons, decide_True, if_pos rfl] at h
    have hlen := congrArg List.length h
    have hle : (rest.dropWhile (fun c => c = '/')).length ≤ rest.length :=
      length_dropWhile_le _ rest
    simp at hlen
    omega

theorem normalize_path_idem (p : Path) :
    normalize_path (normalize_path p) = normalize_path p := by
  apply normalize_path_eq_self
  intro c hc
  unfold normalize_path at hc
  induction p with
  | nil => simp at hc
  | cons d rest ih =>
    by_cases hd : d = '/'
    · simp [List.dropWhile_cons, hd] at hc
      exact ih (by simpa [List.dropWhile] using hc)
    · simp [List.dropWhile_cons, hd] at hc
      rw [← hc]
      exact hd

theorem basename_of_no_slash {s : Path} (h : '/' ∉ s) : basename s = s := by
  unfold basename
  rw [lastSlashSplit_eq_none h]

theorem basename_append {a b : Path} (h : '/' ∉ b) :
    basename (a ++ '/' :: b) = b := by
  unfold basename
  rw [lastSlashSplit_append h]

/-- Amended invariant 2: the whiteout tar-name roundtrip recovers the
canonical path provided its basename does not itself begin with `".wh."`. -/
theorem roundtrip_clean {c : Path} (h : startsWith whp (basename c) = false) :
    from_whiteout_tar_path (to_whiteout_tar_path c) = some c := by
  unfold to_whiteout_tar_path
  cases hs : lastSlashSplit c with
  | none =>
    have hb : basename c = c := by simp [basename, hs]
    rw [hb] at h
    have hnos : '/' ∉ whp ++ c := by
      intro hm
      rcases List.mem_append.mp hm with hm | hm
      · exact slash_not_mem_whp hm
      · exact lastSlashSplit_ne_none_of_mem hm hs
    have hsplit : lastSlashSplit (whp ++ c) = none := lastSlashSplit_eq_none hnos
    have hbn : basename (whp ++ c) = whp ++ c := basename_of_no_slash hnos
    have hsent : startsWith (whp ++ whp) (whp ++ c) = false := by
      rw [startsWith_append_cancel]; exact h
    unfold from_whiteout_tar_path
    rw [hbn, hsplit]
    simp only [startsWith_append_self, hsent]
    simp [whp]
  | some pr =>
    rcases pr with ⟨pre, base⟩
    obtain ⟨hc, hnb⟩ := lastSlashSplit_some hs
    have hb : basename c = base := by simp [basename, hs]
    rw [hb] at h
    have hnos : '/' ∉ whp ++ base := by
      intro hm
      rcases List.mem_append.mp hm with hm | hm
      · exact slash_not_mem_whp hm
      · exact hnb hm
    have hsplit : lastSlashSplit (pre ++ '/' :: (whp ++ base)) = some (pre, whp ++ base) :=
      lastSlashSplit_append hnos
    have hbn : basename (pre ++ '/' :: (whp ++ base)) = whp ++ base :=
      basename_append hnos
    have hsent : startsWith (whp ++ whp) (whp ++ base) = false := by
      rw [startsWith_append_cancel]; exact h
    unfold from_whiteout_tar_path
    rw [hbn, hsplit]
    simp only [startsWith_append_self, hsent]
    simp [whp, hc]

/-- A tar name whose basename does not begin with `".wh."` is not a
whiteout name. -/
theorem from_whiteout_clean_none {p : Path}
    (h : startsWith whp (basename p) = false) :
    from_whiteout_tar_path p = none := by
  unfold from_whiteout_tar_path
  simp [h]

/-- A tar name whose basename begins with the reserved sentinel
`".wh..wh."` is not a whiteout name. -/
theorem from_whiteout_sentinel_none {p : Path}
    (h : startsWith (whp ++ whp) (basename p) = true) :
    from_whiteout_tar_path p = none := by
  unfold from_whiteout_tar_path
  simp [h]

/-- The real path recovered from a whiteout tar name never has a
`".wh."`-prefixed basename. -/
theorem from_whiteout_real_clean {p real : Path}
    (h : from_whiteout_tar_path p = some real) :
    startsWith whp (basename real) = false := by
  unfold from_whiteout_tar_path at h
  by_cases hcond : (startsWith whp (basename p) &&
      !(startsWith (whp ++ whp) (basename p))) = true
  · rw [if_pos hcond] at h
    obtain ⟨h1, h2⟩ := Bool.and_eq_true_iff.mp hcond
    have hs2 : startsWith (whp ++ whp) (basename p) = false := by simpa using h2
    have hbp : basename p = whp ++ (basename p).drop 4 := startsWith_eq_append h1
    have hsent : startsWith whp ((basename p).drop 4) = false := by
      by_contra habs
      rw [Bool.not_eq_false] at habs
      rw [hbp, startsWith_append_cancel] at hs2
      rw [habs] at hs2
      simp at hs2
    have hnos : '/' ∉ (basename p).drop 4 := by
      intro hm
      exact basename_no_slash p (by rw [hbp]; exact List.mem_append.mpr (Or.inr hm))
    cases hs : lastSlashSplit p with
    | none =>
      rw [hs] at h
      have hreal : real = (basename p).drop 4 := by simpa using h.symm
      subst hreal
      rw [basename_of_no_slash hnos]
      exact hsent
    | some pr =>
      rcases pr with ⟨pre, base⟩
      rw [hs] at h
      have hreal : real = pre ++ '/' :: (basename p).drop 4 := by simpa using h.symm
      subst hreal
      rw [basename_append hnos]
      exact hsent
  · rw [if_neg hcond] at h
    simp at h

/-! ### Data model -/

/-- One entry as parsed from a tar layer (`RawEntry` in `src/lib.rs`). -/
structure RawEntry where
  data : List Nat
  mtime : Nat
  is_whiteout : Bool
  is_dir : Bool
  deriving DecidableEq

/-- An entry resolved through the full union view (`ResolvedEntry`). -/
structure ResolvedEntry where
  data : List Nat
  mtime : Nat
  layer_idx : Nat
  size : Nat
  deriving DecidableEq

/-- One tar archive member, abstracting the external `tar` crate:
the crate serialises a sequence of (name, mtime, type-flag, payload)
members and parses the same sequence back, so a layer blob is modelled
as the member sequence itself. -/
structure TarEnt where
  path : Path
  mtime : Nat
  is_dir : Bool
  data : List Nat
  deriving DecidableEq

/-- A layer's entry map (`HashMap<String, RawEntry>`), as an
association list with pairwise-distinct keys. -/
abbrev Layer := List (Path × RawEntry)

/-! ### Association-list toolkit -/

/-- First-match association lookup (`HashMap::get` on a map whose keys
are pairwise distinct). -/
def alookup {α : Type} : List (Path × α) → Path → Option α
  | [], _ => none
  | kv :: rest, p => if kv.1 = p then some kv.2 else alookup rest p

/-- Remove all bindings of a key. -/
def eraseKey {α : Type} (k : Path) : List (Path × α) → List (Path × α)
  | [] => []
  | kv :: rest => if kv.1 = k then eraseKey k rest else kv :: eraseKey k rest

/-- `HashMap::insert`: bind `k` to `v`, replacing any previous binding. -/
def insertA {α : Type} (k : Path) (v : α) (m : List (Path × α)) : List (Path × α) :=
  (k, v) :: eraseKey k m

/-- Boolean membership in a list of paths (`HashSet::contains`). -/
def memB (p : Path) : List Path → Bool
  | [] => false
  | q :: rest => q = p || memB p rest

theorem memB_iff {p : Path} {l : List Path} : memB p l = true ↔ p ∈ l := by
  induction l with
  | nil => simp [memB]
  | cons q rest ih =>
    simp only [memB, Bool.or_eq_true, decide_eq_true_eq, ih, List.mem_cons]
    constructor
    · rintro (h | h)
      · exact Or.inl h.symm
      · exact Or.inr h
    · rintro (h | h)
      · exact Or.inl h.symm
      · exact Or.inr h

theorem alookup_nil {α : Type} (p : Path) : alookup ([] : List (Path × α)) p = none := rfl

theorem alookup_cons {α : Type} (kv : Path × α) (rest : List (Path × α)) (p : Path) :
    alookup (kv :: rest) p = if kv.1 = p then some kv.2 else alookup rest p := rfl

theorem alookup_eq_none_iff {α : Type} {m : List (Path × α)} {p : Path} :
    alookup m p = none ↔ p ∉ m.map Prod.fst := by
  induction m with
  | nil => simp [alookup_nil]
  | cons kv rest ih =>
    rw [alookup_cons, List.map_cons]
    by_cases hk : kv.1 = p
    · rw [if_pos hk]
      constructor
      · intro h; cases h
      · intro h; exact absurd (List.mem_cons.mpr (Or.inl hk.symm)) h
    · rw [if_neg hk, ih]
      simp only [List.mem_cons, not_or]
      constructor
      · exact fun h => ⟨fun he => hk he.symm, h⟩
      · exact fun h => h.2

theorem alookup_mem {α : Type} {m : List (Path × α)} {p : Path} {v : α}
    (h : alookup m p = some v) : (p, v) ∈ m := by
  induction m with
  | nil => rw [alookup_nil] at h; cases h
  | cons kv rest ih =>
    rw [alookup_cons] at h
    by_cases hk : kv.1 = p
    · rw [if_pos hk] at h
      have : kv = (p, v) := by
        rcases kv with ⟨k1, v1⟩
        have : v1 = v := Option.some.inj h
        simp [this, ← hk]
      rw [← this]
      exact List.mem_cons_self kv rest
    · rw [if_neg hk] at h
      exact List.mem_cons_of_mem _ (ih h)

theorem mem_alookup_of_nodup {α : Type} {m : List (Path × α)} {p : Path} {v : α}
    (hnd : (m.map Prod.fst).Nodup) (h : (p, v) ∈ m) : alookup m p = some v := by
  induction m with
  | nil => cases h
  | cons kv rest ih =>
    rw [List.map_cons, List.nodup_cons] at hnd
    rcases List.mem_cons.mp h with h' | h'
    · rw [← h', alookup_cons, if_pos rfl]
    · have hk : kv.1 ≠ p := by
        intro he
        exact hnd.1 (he ▸ (List.mem_map.mpr ⟨(p, v), h', rfl⟩))
      rw [alookup_cons, if_neg hk]
      exact ih hnd.2 h'

theorem alookup_eraseKey_ne {α : Type} {m : List (Path × α)} {k p : Path}
    (h : k ≠ p) : alookup (eraseKey k m) p = alookup m p := by
  induction m with
  | nil => rfl
  | cons kv rest ih =>
    rw [eraseKey]
    by_cases hk : kv.1 = k
    · have hkp : kv.1 ≠ p := by rw [hk]; exact h
      rw [if_pos hk, alookup_cons, if_neg hkp]
      exact ih
    · rw [if_neg hk, alookup_cons, alookup_cons]
      by_cases hp : kv.1 = p
      · rw [if_pos hp, if_pos hp]
      · rw [if_neg hp, if_neg hp]
        exact ih

theorem alookup_insertA_self {α : Type} (m : List (Path × α)) (k : Path) (v : α) :
    alookup (insertA k v m) k = some v := by
  rw [insertA, alookup_cons, if_pos rfl]

theorem alookup_insertA_ne {α : Type} {m : List (Path × α)} {k p : Path} (v : α)
    (h : k ≠ p) : alookup (insertA k v m) p = alookup m p := by
  rw [insertA, alookup_cons, if_neg h]
  exact alookup_eraseKey_ne h

theorem mem_eraseKey {α : Type} {m : List (Path × α)} {k : Path} {kv : Path × α}
    (h : kv ∈ eraseKey k m) : kv ∈ m := by
  induction m with
  | nil => cases h
  | cons kv' rest ih =>
    rw [eraseKey] at h
    by_cases hk : kv'.1 = k
    · rw [if_pos hk] at h
      exact List.mem_cons_of_mem _ (ih h)
    · rw [if_neg hk] at h
      rcases List.mem_cons.mp h with h' | h'
      · exact h' ▸ List.mem_cons_self kv' rest
      · exact List.mem_cons_of_mem _ (ih h')

theorem mem_insertA {α : Type} {m : List (Path × α)} {k : Path} {v : α}
    {kv : Path × α} (h : kv ∈ insertA k v m) : kv = (k, v) ∨ kv ∈ m := by
  rcases List.mem_cons.mp h with h' | h'
  · exact Or.inl h'
  · exact Or.inr (mem_eraseKey h')

theorem eraseKey_keys_not_mem {α : Type} (m : List (Path × α)) (k : Path) :
    k ∉ (eraseKey k m).map Prod.fst := by
  induction m with
  | nil => simp [eraseKey]
  | cons kv rest ih =>
    rw [eraseKey]
    by_cases hk : kv.1 = k
    · rw [if_pos hk]
      exact ih
    · rw [if_neg hk, List.map_cons]
      intro h
      rcases List.mem_cons.mp h with h' | h'
      · exact hk h'.symm
      · exact ih h'

theorem eraseKey_keys_nodup {α : Type} {m : List (Path × α)}
    (h : (m.map Prod.fst).Nodup) (k : Path) :
    ((eraseKey k m).map Prod.fst).Nodup := by
  induction m with
  | nil => simp [eraseKey]
  | cons kv rest ih =>
    rw [List.map_cons, List.nodup_cons] at h
    rw [eraseKey]
    by_cases hk : kv.1 = k
    · rw [if_pos hk]
      exact ih h.2
    · rw [if_neg hk, List.map_cons, List.nodup_cons]
      refine ⟨fun hm => ?_, ih h.2⟩
      rcases List.mem_map.mp hm with ⟨kv', hm', hk'⟩
      exact h.1 (List.mem_map.mpr ⟨kv', mem_eraseKey hm', hk'⟩)

theorem insertA_keys_nodup {α : Type} {m : List (Path × α)}
    (h : (m.map Prod.fst).Nodup) (k : Path) (v : α) :
    ((insertA k v m).map Prod.fst).Nodup := by
  rw [insertA, List.map_cons, List.nodup_cons]
  exact ⟨eraseKey_keys_not_mem m k, eraseKey_keys_nodup h k⟩

theorem eraseKey_of_not_mem {α : Type} {m : List (Path × α)} {k : Path}
    (h : k ∉ m.map Prod.fst) : eraseKey k m = m := by
  induction m with
  | nil => rfl
  | cons kv rest ih =>
    rw [List.map_cons] at h
    have h1 : kv.1 ≠ k := fun he => h (List.mem_cons.mpr (Or.inl he.symm))
    have h2 : k ∉ rest.map Prod.fst := fun hm => h (List.mem_cons.mpr (Or.inr hm))
    rw [eraseKey, if_neg h1, ih h2]

theorem alookup_map_snd {α β : Type} (f : α → β) (m : List (Path × α)) (p : Path) :
    alookup (m.map (fun kv => (kv.1, f kv.2))) p = (alookup m p).map f := by
  induction m with
  | nil => rfl
  | cons kv rest ih =>
    rw [List.map_cons, alookup_cons, alookup_cons]
    by_cases hk : kv.1 = p
    · rw [if_pos hk, if_pos hk]
      rfl
    · rw [if_neg hk, if_neg hk]
      exact ih

theorem alookup_of_perm {α : Type} {m m' : List (Path × α)}
    (hnd : (m.map Prod.fst).Nodup) (hp : m.Perm m') (p : Path) :
    alookup m p = alookup m' p := by
  have hnd' : (m'.map Prod.fst).Nodup := (hp.map Prod.fst).nodup_iff.mp hnd
  cases h : alookup m p with
  | some v => exact (mem_alookup_of_nodup hnd' (hp.mem_iff.mp (alookup_mem h))).symm
  | none =>
    cases h' : alookup m' p with
    | none => rfl
    | some v =>
      rw [alookup_eq_none_iff] at h
      exact absurd (List.mem_map.mpr ⟨(p, v), hp.mem_iff.mpr (alookup_mem h'), rfl⟩) h

/-! ### Layer codec (`parse_tar_layer` / `build_tar_layer`) -/

/-- The per-member step of `parse_tar_layer`'s loop: canonicalize the
stored name; a whiteout tar name inserts a whiteout `RawEntry` at the
real path, anything else inserts a content `RawEntry` at the
canonicalized name. -/
def parseEnt (m : Layer) (ent : TarEnt) : Layer :=
  let path := normalize_path ent.path
  match from_whiteout_tar_path path with
  | some real => insertA real ⟨[], ent.mtime, true, false⟩ m
  | none => insertA path ⟨ent.data, ent.mtime, false, ent.is_dir⟩ m

/-- `parse_tar_layer` from `src/lib.rs`, over the abstract member
sequence of the layer blob. -/
def parse_tar_layer (ents : List TarEnt) : Layer := ents.foldl parseEnt []

/-- `build_tar_layer` from `src/lib.rs`: one member per content entry
(normalized path, payload), then one empty member per whiteout under
its `".wh."` tar name; all members share the single emit timestamp
`ts` and are regular files. -/
def build_tar_layer (entries : List (Path × List Nat)) (whiteouts : List Path)
    (ts : Nat) : List TarEnt :=
  entries.map (fun pd => ⟨normalize_path pd.1, ts, false, pd.2⟩) ++
    whiteouts.map (fun c => ⟨to_whiteout_tar_path (normalize_path c), ts, false, []⟩)

/-- Keys a layer map may contain: canonical (no leading slash) and
never themselves parseable as a whiteout tar name. -/
def GoodKey (k : Path) : Prop :=
  normalize_path k = k ∧ from_whiteout_tar_path k = none

theorem parseEnt_whiteout {ent : TarEnt} {real : Path}
    (h : from_whiteout_tar_path (normalize_path ent.path) = some real) (m : Layer) :
    parseEnt m ent = insertA real ⟨[], ent.mtime, true, false⟩ m := by
  simp only [parseEnt]
  rw [h]

theorem parseEnt_content {ent : TarEnt}
    (h : from_whiteout_tar_path (normalize_path ent.path) = none) (m : Layer) :
    parseEnt m ent = insertA (normalize_path ent.path)
      ⟨ent.data, ent.mtime, false, ent.is_dir⟩ m := by
  simp only [parseEnt]
  rw [h]

theorem parse_keys_nodup (ents : List TarEnt) :
    ((parse_tar_layer ents).map Prod.fst).Nodup := by
  suffices h : ∀ m : Layer, (m.map Prod.fst).Nodup →
      ((ents.foldl parseEnt m).map Prod.fst).Nodup by
    exact h [] (by simp)
  induction ents with
  | nil => exact fun m hm => hm
  | cons ent rest ih =>
    intro m hm
    rw [List.foldl_cons]
    apply ih
    cases hf : from_whiteout_tar_path (normalize_path ent.path) with
    | some real =>
      rw [parseEnt_whiteout hf]
      exact insertA_keys_nodup hm _ _
    | none =>
      rw [parseEnt_content hf]
      exact insertA_keys_nodup hm _ _

/-- The normalized real path of a whiteout tar name is itself, and it
is not a whiteout name: helper for `parse_keys_good`. -/
theorem whiteout_real_good {p real : Path} (hp : normalize_path p = p)
    (h : from_whiteout_tar_path p = some real) : GoodKey real := by
  have hclean := from_whiteout_real_clean h
  refine ⟨?_, from_whiteout_clean_none hclean⟩
  unfold from_whiteout_tar_path at h
  by_cases hcond : (startsWith whp (basename p) &&
      !(startsWith (whp ++ whp) (basename p))) = true
  · rw [if_pos hcond] at h
    cases hs : lastSlashSplit p with
    | none =>
      rw [hs] at h
      have hreal : real = (basename p).drop 4 := by simpa using h.symm
      subst hreal
      apply normalize_path_eq_self
      intro c hc he
      subst he
      have : '/' ∈ (basename p).drop 4 := by
        cases hd : (basename p).drop 4 with
        | nil => rw [hd] at hc; cases hc
        | cons x xs =>
          rw [hd] at hc
          have hx : x = '/' := by simpa using hc
          rw [hx]
          exact List.mem_cons_self _ _
      exact basename_no_slash p (by
        obtain ⟨h1, _⟩ := Bool.and_eq_true_iff.mp hcond
        rw [startsWith_eq_append h1]
        exact List.mem_append.mpr (Or.inr this))
    | some pr =>
      rcases pr with ⟨pre, base⟩
      rw [hs] at h
      have hreal : real = pre ++ '/' :: (basename p).drop 4 := by simpa using h.symm
      subst hreal
      obtain ⟨hsp, _⟩ := lastSlashSplit_some hs
      apply normalize_path_eq_self
      intro c hc he
      subst he
      -- head of pre ++ '/' :: … is head of p, which is not '/'
      have hhp := head_ne_slash_of_normalize_path hp
      cases hpre : pre with
      | nil =>
        rw [hpre] at hsp
        exact hhp '/' (by rw [hsp]; rfl) rfl
      | cons x xs =>
        rw [hpre] at hc
        have hx : x = '/' := by simpa using hc
        refine hhp '/' ?_ rfl
        rw [hsp, hpre, hx]
        rfl
  · rw [if_neg hcond] at h
    cases h

theorem parse_keys_good (ents : List TarEnt) :
    ∀ kv ∈ parse_tar_layer ents, GoodKey kv.1 := by
  suffices h : ∀ m : Layer, (∀ kv ∈ m, GoodKey kv.1) →
      ∀ kv ∈ ents.foldl parseEnt m, GoodKey kv.1 by
    exact h [] (by intro kv h; cases h)
  induction ents with
  | nil => exact fun m hm => hm
  | cons ent rest ih =>
    intro m hm
    rw [List.foldl_cons]
    apply ih
    intro kv hkv
    cases hf : from_whiteout_tar_path (normalize_path ent.path) with
    | some real =>
      rw [parseEnt_whiteout hf] at hkv
      rcases mem_insertA hkv with h' | h'
      · rw [h']
        exact whiteout_real_good (normalize_path_idem ent.path) hf
      · exact hm kv h'
    | none =>
      rw [parseEnt_content hf] at hkv
      rcases mem_insertA hkv with h' | h'
      · rw [h']
        exact ⟨normalize_path_idem ent.path, hf⟩
      · exact hm kv h'

/-! ### Union resolver (`TcowFile::union_view`) -/

/-- State of the `union_view` loop: the accumulated `result` map and
the `deleted` set. -/
structure ViewState where
  result : List (Path × ResolvedEntry)
  deleted : List Path

/-- Build the `ResolvedEntry` that `union_view` inserts for a content
entry found in layer `i`. -/
def mkResolved (i : Nat) (e : RawEntry) : ResolvedEntry :=
  ⟨e.data, e.mtime, i, e.data.length⟩

/-- Body of the inner `for (path, entry) in layer_entries` loop of
`union_view`. -/
def procEntry (i : Nat) (st : ViewState) (pe : Path × RawEntry) : ViewState :=
  if pe.2.is_whiteout then
    ⟨st.result, pe.1 :: st.deleted⟩
  else if !(memB pe.1 st.deleted) && (alookup st.result pe.1).isNone
      && !pe.2.is_dir then
    ⟨(pe.1, mkResolved i pe.2) :: st.result, st.deleted⟩
  else st

/-- One layer's pass of the outer loop. -/
def procLayer (st : ViewState) (il : Nat × Layer) : ViewState :=
  il.2.foldl (procEntry il.1) st

/-- Rust `iter().enumerate()` with a given starting index. -/
def enumFromL {α : Type} : Nat → List α → List (Nat × α)
  | _, [] => []
  | i, x :: rest => (i, x) :: enumFromL (i + 1) rest

/-- `TcowFile::union_view`: iterate layers from highest (most recent)
to lowest, letting whiteouts shadow lower layers. -/
def union_view (layers : List Layer) : List (Path × ResolvedEntry) :=
  (((enumFromL 0 layers).reverse).foldl procLayer ⟨[], []⟩).result

/-- Lookup of a canonical path in the union view (the map access
behind `TcowFile::resolve`). -/
def viewLookup (layers : List Layer) (p : Path) : Option ResolvedEntry :=
  alookup (union_view layers) p

/-- `TcowFile::visible_count`: number of entries of the union view. -/
def visible_count (layers : List Layer) : Nat := (union_view layers).length

/-- A layer map has pairwise-distinct keys (as every Rust `HashMap`
does). -/
def keysNodup (L : Layer) : Prop := (L.map Prod.fst).Nodup

/-! #### Per-path characterization of the fold -/

/-- Effect of one layer on the state of a single path: `none` leaves
it alone, a whiteout marks it deleted, a directory is skipped, and a
regular file resolves it when the path is neither deleted nor already
resolved. -/
def stepP (i : Nat) (oe : Option RawEntry) (s : Option ResolvedEntry × Bool) :
    Option ResolvedEntry × Bool :=
  match oe with
  | none => s
  | some e =>
    if e.is_whiteout then (s.1, true)
    else if !s.2 && s.1.isNone && !e.is_dir then (some (mkResolved i e), s.2)
    else s

/-- The state of a single path in a `ViewState`. -/
def stateP (st : ViewState) (p : Path) : Option ResolvedEntry × Bool :=
  (alookup st.result p, memB p st.deleted)

theorem procEntry_stateP_ne {i : Nat} {st : ViewState} {pe : Path × RawEntry}
    {p : Path} (h : pe.1 ≠ p) : stateP (procEntry i st pe) p = stateP st p := by
  unfold procEntry
  by_cases hw : pe.2.is_whiteout
  · rw [if_pos hw]
    unfold stateP
    simp only [memB]
    have : (pe.1 = p : Bool) = false := by simp [h]
    rw [this, Bool.false_or]
  · rw [if_neg hw]
    by_cases hc : (!(memB pe.1 st.deleted) && (alookup st.result pe.1).isNone
        && !pe.2.is_dir) = true
    · rw [if_pos hc]
      unfold stateP
      rw [alookup_cons, if_neg h]
    · rw [if_neg hc]

theorem procEntry_stateP_eq {i : Nat} {st : ViewState} {p : Path} {e : RawEntry} :
    stateP (procEntry i st (p, e)) p = stepP i (some e) (stateP st p) := by
  unfold procEntry stepP stateP
  by_cases hw : e.is_whiteout
  · simp only [hw, if_pos rfl]
    simp [memB]
  · simp only [Bool.false_eq_true, if_neg hw, if_false]
    by_cases hc : (!(memB p st.deleted) && (alookup st.result p).isNone
        && !e.is_dir) = true
    · rw [if_pos hc, if_pos hc]
      rw [alookup_cons, if_pos rfl]
    · rw [if_neg hc, if_neg hc]

theorem foldl_procEntry_stateP_not_mem {i : Nat} {L : Layer} {p : Path}
    (h : p ∉ L.map Prod.fst) (st : ViewState) :
    stateP (L.foldl (procEntry i) st) p = stateP st p := by
  induction L generalizing st with
  | nil => rfl
  | cons kv rest ih =>
    rw [List.map_cons] at h
    have h1 : kv.1 ≠ p := fun he => h (List.mem_cons.mpr (Or.inl he.symm))
    have h2 : p ∉ rest.map Prod.fst := fun hm => h (List.mem_cons.mpr (Or.inr hm))
    rw [List.foldl_cons, ih h2, procEntry_stateP_ne h1]

theorem procLayer_stateP {i : Nat} {L : Layer} (hnd : keysNodup L)
    (st : ViewState) (p : Path) :
    stateP (procLayer st (i, L)) p = stepP i (alookup L p) (stateP st p) := by
  induction L generalizing st with
  | nil => rfl
  | cons kv rest ih =>
    rcases kv with ⟨q, e⟩
    unfold keysNodup at hnd
    rw [List.map_cons, List.nodup_cons] at hnd
    by_cases hq : q = p
    · subst hq
      show stateP ((procEntry i st (q, e)) |> rest.foldl (procEntry i)) q = _
      rw [foldl_procEntry_stateP_not_mem hnd.1, procEntry_stateP_eq,
        alookup_cons, if_pos rfl]
    · show stateP ((procEntry i st (q, e)) |> rest.foldl (procEntry i)) p = _
      have := ih hnd.2 (procEntry i st (q, e))
      unfold procLayer at this
      rw [this, procEntry_stateP_ne hq, alookup_cons, if_neg hq]

/-- Accumulated per-path effect of a list of (index, layer) pairs,
processed first-to-last. -/
def resolveP (p : Path) : List (Nat × Layer) → Option ResolvedEntry × Bool →
    Option ResolvedEntry × Bool
  | [], s => s
  | il :: rest, s => resolveP p rest (stepP il.1 (alookup il.2 p) s)

theorem foldl_procLayer_stateP {ls : List (Nat × Layer)}
    (hnd : ∀ il ∈ ls, keysNodup il.2) (st : ViewState) (p : Path) :
    stateP (ls.foldl procLayer st) p = resolveP p ls (stateP st p) := by
  induction ls generalizing st with
  | nil => rfl
  | cons il rest ih =>
    rcases il with ⟨i, L⟩
    rw [List.foldl_cons, resolveP,
      ih (fun il h => hnd il (List.mem_cons_of_mem _ h)) (procLayer st (i, L)),
      procLayer_stateP (hnd (i, L) (List.mem_cons_self _ _)) st p]

/-- Top-down early-exit description of per-path resolution: the first
decisive (non-directory) occurrence wins; a whiteout kills everything
below it. -/
def resolveTD (p : Path) : List (Nat × Layer) → Option ResolvedEntry
  | [] => none
  | il :: rest =>
    match alookup il.2 p with
    | none => resolveTD p rest
    | some e =>
      if e.is_whiteout then none
      else if e.is_dir then resolveTD p rest
      else some (mkResolved il.1 e)

theorem stepP_none (i : Nat) (s : Option ResolvedEntry × Bool) :
    stepP i none s = s := rfl

theorem stepP_whiteout {e : RawEntry} (hw : e.is_whiteout = true) (i : Nat)
    (s : Option ResolvedEntry × Bool) : stepP i (some e) s = (s.1, true) := by
  show (if e.is_whiteout = true then (s.1, true)
      else if (!s.2 && s.1.isNone && !e.is_dir) = true
        then (some (mkResolved i e), s.2) else s) = (s.1, true)
  rw [if_pos hw]

theorem stepP_content {e : RawEntry} (hw : e.is_whiteout = false) (i : Nat)
    (s : Option ResolvedEntry × Bool) :
    stepP i (some e) s =
      if (!s.2 && s.1.isNone && !e.is_dir) = true then (some (mkResolved i e), s.2)
      else s := by
  show (if e.is_whiteout = true then (s.1, true)
      else if (!s.2 && s.1.isNone && !e.is_dir) = true
        then (some (mkResolved i e), s.2) else s) = _
  rw [if_neg (by rw [hw]; exact Bool.false_ne_true)]

theorem bool_eq_false_of_not {b : Bool} (h : ¬b = true) : b = false := by
  cases hb : b
  · rfl
  · exact absurd hb h

theorem resolveP_resolved {p : Path} {r : ResolvedEntry} {b : Bool}
    (ls : List (Nat × Layer)) : (resolveP p ls (some r, b)).1 = some r := by
  induction ls generalizing b with
  | nil => rfl
  | cons il rest ih =>
    rw [resolveP]
    cases ha : alookup il.2 p with
    | none =>
      rw [stepP_none]
      exact ih
    | some e =>
      by_cases hw : e.is_whiteout
      · rw [stepP_whiteout hw]
        exact ih
      · rw [stepP_content (bool_eq_false_of_not hw)]
        show (resolveP p rest (if (!b && (some r).isNone && !e.is_dir) = true
            then (some (mkResolved il.1 e), b) else (some r, b))).1 = some r
        rw [if_neg (by simp)]
        exact ih

theorem resolveP_deleted {p : Path} (ls : List (Nat × Layer)) :
    resolveP p ls (none, true) = (none, true) := by
  induction ls with
  | nil => rfl
  | cons il rest ih =>
    rw [resolveP]
    cases ha : alookup il.2 p with
    | none =>
      rw [stepP_none]
      exact ih
    | some e =>
      by_cases hw : e.is_whiteout
      · rw [stepP_whiteout hw]
        exact ih
      · rw [stepP_content (bool_eq_false_of_not hw)]
        show resolveP p rest
            (if (!true && (none : Option ResolvedEntry).isNone && !e.is_dir) = true
              then (some (mkResolved il.1 e), true) else (none, true)) = (none, true)
        rw [if_neg (by simp)]
        exact ih

theorem resolveP_eq_resolveTD (p : Path) (ls : List (Nat × Layer)) :
    (resolveP p ls (none, false)).1 = resolveTD p ls := by
  induction ls with
  | nil => rfl
  | cons il rest ih =>
    rw [resolveP, resolveTD]
    cases ha : alookup il.2 p with
    | none =>
      rw [stepP_none]
      exact ih
    | some e =>
      by_cases hw : e.is_whiteout
      · rw [stepP_whiteout hw]
        show (resolveP p rest ((none : Option ResolvedEntry), true)).1 =
          if e.is_whiteout = true then none
          else if e.is_dir = true then resolveTD p rest else some (mkResolved il.1 e)
        rw [if_pos hw, resolveP_deleted rest]
      · have hw' : e.is_whiteout = false := bool_eq_false_of_not hw
        rw [stepP_content hw']
        show (resolveP p rest
            (if (!false && (none : Option ResolvedEntry).isNone && !e.is_dir) = true
              then (some (mkResolved il.1 e), false) else (none, false))).1 =
          if e.is_whiteout = true then none
          else if e.is_dir = true then resolveTD p rest else some (mkResolved il.1 e)
        by_cases hd : e.is_dir
        · rw [if_neg (show ¬((!false && (none : Option ResolvedEntry).isNone
              && !e.is_dir) = true) by simp [hd])]
          rw [if_neg (show ¬(e.is_whiteout = true) by
            rw [hw']; exact Bool.false_ne_true)]
          rw [if_pos hd]
          exact ih
        · have hd' : e.is_dir = false := bool_eq_false_of_not hd
          rw [if_pos (show (!false && (none : Option ResolvedEntry).isNone
              && !e.is_dir) = true by simp [hd'])]
          rw [if_neg (show ¬(e.is_whiteout = true) by
            rw [hw']; exact Bool.false_ne_true)]
          rw [if_neg (show ¬(e.is_dir = true) by
            rw [hd']; exact Bool.false_ne_true)]
          exact resolveP_resolved rest

/-- The central characterization: union-view lookup is top-down
per-path resolution over the reversed enumerated layer stack. -/
theorem viewLookup_eq_resolveTD {layers : List Layer}
    (hnd : ∀ L ∈ layers, keysNodup L) (p : Path) :
    viewLookup layers p = resolveTD p ((enumFromL 0 layers).reverse) := by
  have hmem : ∀ il ∈ (enumFromL 0 layers).reverse, keysNodup il.2 := by
    intro il hil
    rw [List.mem_reverse] at hil
    suffices h : ∀ s : Nat, ∀ il ∈ enumFromL s layers, keysNodup il.2 by
      exact h 0 il hil
    clear hil il
    induction layers with
    | nil => intro s il h; cases h
    | cons L rest ih =>
      intro s il h
      rw [enumFromL] at h
      rcases List.mem_cons.mp h with h' | h'
      · rw [h']
        exact hnd L (List.mem_cons_self _ _)
      · exact ih (fun L' hL' => hnd L' (List.mem_cons_of_mem _ hL')) (s + 1) il h'
  have h0 : stateP ⟨[], []⟩ p = (none, false) := rfl
  have := foldl_procLayer_stateP hmem ⟨[], []⟩ p
  rw [h0] at this
  have h1 : viewLookup layers p
      = (stateP (((enumFromL 0 layers).reverse).foldl procLayer ⟨[], []⟩) p).1 := rfl
  rw [h1, this, resolveP_eq_resolveTD]

/-! #### Equation lemmas for `resolveTD` and list indexing -/

theorem resolveTD_nil (p : Path) : resolveTD p [] = none := rfl

theorem resolveTD_cons_none {p : Path} {il : Nat × Layer} {rest : List (Nat × Layer)}
    (h : alookup il.2 p = none) : resolveTD p (il :: rest) = resolveTD p rest := by
  rw [resolveTD, h]

theorem resolveTD_cons_whiteout {p : Path} {il : Nat × Layer}
    {rest : List (Nat × Layer)} {e : RawEntry} (h : alookup il.2 p = some e)
    (hw : e.is_whiteout = true) : resolveTD p (il :: rest) = none := by
  rw [resolveTD, h]
  show (if e.is_whiteout = true then none
      else if e.is_dir = true then resolveTD p rest
      else some (mkResolved il.1 e)) = none
  rw [if_pos hw]

theorem resolveTD_cons_dir {p : Path} {il : Nat × Layer}
    {rest : List (Nat × Layer)} {e : RawEntry} (h : alookup il.2 p = some e)
    (hw : e.is_whiteout = false) (hd : e.is_dir = true) :
    resolveTD p (il :: rest) = resolveTD p rest := by
  rw [resolveTD, h]
  show (if e.is_whiteout = true then none
      else if e.is_dir = true then resolveTD p rest
      else some (mkResolved il.1 e)) = resolveTD p rest
  rw [if_neg (show ¬(e.is_whiteout = true) by rw [hw]; exact Bool.false_ne_true),
    if_pos hd]

theorem resolveTD_cons_file {p : Path} {il : Nat × Layer}
    {rest : List (Nat × Layer)} {e : RawEntry} (h : alookup il.2 p = some e)
    (hw : e.is_whiteout = false) (hd : e.is_dir = false) :
    resolveTD p (il :: rest) = some (mkResolved il.1 e) := by
  rw [resolveTD, h]
  show (if e.is_whiteout = true then none
      else if e.is_dir = true then resolveTD p rest
      else some (mkResolved il.1 e)) = some (mkResolved il.1 e)
  rw [if_neg (show ¬(e.is_whiteout = true) by rw [hw]; exact Bool.false_ne_true),
    if_neg (show ¬(e.is_dir = true) by rw [hd]; exact Bool.false_ne_true)]

/-- Skipping a transparent (whiteout-free, directories-only) prefix of
the stack does not change per-path resolution. -/
theorem resolveTD_transparent {p : Path} {pre rest : List (Nat × Layer)}
    (h : ∀ il ∈ pre, ∀ e, alookup il.2 p = some e →
      e.is_whiteout = false ∧ e.is_dir = true) :
    resolveTD p (pre ++ rest) = resolveTD p rest := by
  induction pre with
  | nil => rfl
  | cons il pre' ih =>
    rw [List.cons_append]
    have htail := fun il' h' e he => h il' (List.mem_cons_of_mem _ h') e he
    cases ha : alookup il.2 p with
    | none => rw [resolveTD_cons_none ha, ih htail]
    | some e =>
      obtain ⟨hw, hd⟩ := h il (List.mem_cons_self _ _) e ha
      rw [resolveTD_cons_dir ha hw hd, ih htail]

theorem enumFromL_append {α : Type} (s : Nat) (A B : List α) :
    enumFromL s (A ++ B) = enumFromL s A ++ enumFromL (s + A.length) B := by
  induction A generalizing s with
  | nil => simp [enumFromL]
  | cons x A ih =>
    rw [List.cons_append, enumFromL, enumFromL, ih (s + 1), List.cons_append]
    have : s + 1 + A.length = s + (x :: A).length := by
      simp
      omega
    rw [this]

theorem mem_enumFromL {α : Type} {s : Nat} {X : List α} {il : Nat × α}
    (h : il ∈ enumFromL s X) : ∃ m, il.1 = s + m ∧ X[m]? = some il.2 := by
  induction X generalizing s with
  | nil => cases h
  | cons x X ih =>
    rw [enumFromL] at h
    rcases List.mem_cons.mp h with h' | h'
    · exact ⟨0, by rw [h']; simp, by rw [h']; simp⟩
    · obtain ⟨m, hm1, hm2⟩ := ih h'
      exact ⟨m + 1, by omega, by simpa using hm2⟩

theorem getElem?_some_lt {α : Type} {X : List α} {n : Nat} {a : α}
    (h : X[n]? = some a) : n < X.length := by
  induction X generalizing n with
  | nil => simp at h
  | cons x X ih =>
    cases n with
    | zero => simp
    | succ m =>
      rw [List.length_cons]
      have : X[m]? = some a := by simpa using h
      exact Nat.succ_lt_succ (ih this)

theorem list_split_at_getElem {α : Type} {X : List α} {j : Nat} {a : α}
    (h : X[j]? = some a) :
    X = X.take j ++ a :: X.drop (j + 1) ∧ (X.take j).length = j := by
  induction X generalizing j with
  | nil => simp at h
  | cons x X ih =>
    cases j with
    | zero =>
      have : x = a := by simpa using h
      simp [this]
    | succ m =>
      have hm : X[m]? = some a := by simpa using h
      obtain ⟨h1, h2⟩ := ih hm
      constructor
      · rw [List.take_succ_cons, List.drop_succ_cons, List.cons_append]
        exact congrArg (x :: ·) h1
      · rw [List.take_succ_cons, List.length_cons, h2]

theorem getElem?_drop_add {α : Type} (X : List α) (n m : Nat) :
    (X.drop n)[m]? = X[n + m]? := by
  induction X generalizing n with
  | nil => simp
  | cons x X ih =>
    cases n with
    | zero => simp
    | succ k =>
      rw [List.drop_succ_cons, ih k]
      have : k + 1 + m = (k + m) + 1 := by omega
      rw [this]
      simp

/-! ### Claim C1 -/

theorem procEntry_skip {i : Nat} {st : ViewState} {p : Path} {e : RawEntry}
    (hw : e.is_whiteout = false) (hd : e.is_dir = true) :
    procEntry i st (p, e) = st := by
  show (if e.is_whiteout = true then ViewState.mk st.result (p :: st.deleted)
      else if (!(memB p st.deleted) && (alookup st.result p).isNone
          && !e.is_dir) = true
        then ViewState.mk ((p, mkResolved i e) :: st.result) st.deleted
        else st) = st
  rw [if_neg (show ¬(e.is_whiteout = true) by rw [hw]; exact Bool.false_ne_true),
    if_neg (show ¬((!(memB p st.deleted) && (alookup st.result p).isNone
      && !e.is_dir) = true) by simp [hd])]

/-- A directory entry in a topmost layer is transparent: it neither
appears in the union view nor hides anything below it. -/
theorem union_view_top_dir (layers : List Layer) (p : Path) (e : RawEntry)
    (hd : e.is_dir = true) (hw : e.is_whiteout = false) :
    union_view (layers ++ [[(p, e)]]) = union_view layers := by
  unfold union_view
  rw [enumFromL_append]
  have h1 : enumFromL (0 + layers.length) [[(p, e)]]
      = [(0 + layers.length, [(p, e)])] := rfl
  rw [h1, List.reverse_append]
  have h3 : [(0 + layers.length, [(p, e)])].reverse
      = [(0 + layers.length, [(p, e)])] := by simp
  rw [h3]
  show (((enumFromL 0 layers).reverse).foldl procLayer
      (procLayer ⟨[], []⟩ (0 + layers.length, [(p, e)]))).result = _
  have h2 : procLayer ⟨[], []⟩ (0 + layers.length, [(p, e)]) = ⟨[], []⟩ := by
    show procEntry (0 + layers.length) ⟨[], []⟩ (p, e) = ⟨[], []⟩
    exact procEntry_skip hw hd
  rw [h2]

/-- C1 counterexample: a two-layer stack whose highest layer holds a
directory entry at `"p"` over a regular file at the same path in the
base layer.  Contrary to the claim, the path DOES appear in the union
view, resolved to the base layer's file. -/
theorem c1_counterexample :
    viewLookup
      [[(['p'], ⟨[1], 0, false, false⟩)], [(['p'], ⟨[], 0, false, true⟩)]]
      ['p'] = some ⟨[1], 0, 0, 1⟩ := by decide

/-- C1 (amended): in `union_view`, a highest-layer directory entry is
skipped without shadowing anything, so the whole top layer holding
only that directory entry can be dropped without changing the view; in
particular a regular file at the same path in a strictly lower layer
remains visible, contrary to the original claim. -/
theorem c1_amended (layers : List Layer) (p : Path) (e : RawEntry)
    (hd : e.is_dir = true) (hw : e.is_whiteout = false) :
    union_view (layers ++ [[(p, e)]]) = union_view layers :=
  union_view_top_dir layers p e hd hw

/-- Witness for C1 (amended) at a concrete input. -/
theorem c1_witness :
    ((⟨[], 0, false, true⟩ : RawEntry).is_dir = true
      ∧ (⟨[], 0, false, true⟩ : RawEntry).is_whiteout = false)
    ∧ union_view
        ([[(['p'], ⟨[1], 0, false, false⟩)]] ++ [[(['p'], ⟨[], 0, false, true⟩)]])
      = union_view [[(['p'], ⟨[1], 0, false, false⟩)]] :=
  ⟨⟨rfl, rfl⟩,
    c1_amended [[(['p'], ⟨[1], 0, false, false⟩)]] ['p'] ⟨[], 0, false, true⟩ rfl rfl⟩

/-! ### Claims C4 and C10: soundness of the union view -/

theorem reverse_append_cons {α : Type} (A B : List α) (x : α) :
    (A ++ x :: B).reverse = B.reverse ++ x :: A.reverse := by
  rw [List.reverse_append, List.reverse_cons, List.append_assoc]
  rfl

/-- C4: whiteouts only shadow downward.  If layer `j` holds a regular
file at `p`, some lower layer `i < j` holds a whiteout at `p`, and no
layer above `j` holds a whiteout or a regular file at `p`, the union
view still resolves `p` to the layer-`j` entry. -/
theorem c4_whiteout_shadows_only_downward {layers : List Layer} {i j : Nat}
    {Li Lj : Layer} {p : Path} {e ei : RawEntry}
    (hnd : ∀ L ∈ layers, keysNodup L)
    (hij : i < j)
    (hLi : layers[i]? = some Li) (hwi : alookup Li p = some ei)
    (hei : ei.is_whiteout = true)
    (hLj : layers[j]? = some Lj) (hej : alookup Lj p = some e)
    (hw : e.is_whiteout = false) (hd : e.is_dir = false)
    (habove : ∀ k, j < k → ∀ L' e', layers[k]? = some L' →
      alookup L' p = some e' → e'.is_whiteout = false ∧ e'.is_dir = true) :
    viewLookup layers p = some ⟨e.data, e.mtime, j, e.data.length⟩ := by
  obtain ⟨hsplit, htake⟩ := list_split_at_getElem hLj
  rw [viewLookup_eq_resolveTD hnd p]
  conv_lhs => rw [hsplit]
  rw [enumFromL_append]
  have heq : 0 + (layers.take j).length = j := by rw [Nat.zero_add, htake]
  rw [heq]
  have hcons : enumFromL j (Lj :: layers.drop (j + 1))
      = (j, Lj) :: enumFromL (j + 1) (layers.drop (j + 1)) := rfl
  rw [hcons, reverse_append_cons]
  have htrans : ∀ il ∈ (enumFromL (j + 1) (layers.drop (j + 1))).reverse, ∀ e',
      alookup il.2 p = some e' → e'.is_whiteout = false ∧ e'.is_dir = true := by
    intro il hil e' he'
    rw [List.mem_reverse] at hil
    obtain ⟨m, hm1, hm2⟩ := mem_enumFromL hil
    rw [getElem?_drop_add] at hm2
    exact habove il.1 (by omega) il.2 e' (by rw [hm1]; exact hm2) he'
  rw [resolveTD_transparent htrans]
  exact resolveTD_cons_file hej hw hd

/-- Witness for C4: base layer whiteout at `"p"`, top layer regular
file at `"p"`; the file is visible from layer 1. -/
theorem c4_witness :
    ((∀ L ∈ [[(['p'], (⟨[], 0, true, false⟩ : RawEntry))],
        [(['p'], (⟨[9], 5, false, false⟩ : RawEntry))]], keysNodup L)
      ∧ (0 : Nat) < 1
      ∧ [[(['p'], (⟨[], 0, true, false⟩ : RawEntry))],
          [(['p'], (⟨[9], 5, false, false⟩ : RawEntry))]][0]?
        = some [(['p'], (⟨[], 0, true, false⟩ : RawEntry))]
      ∧ alookup [(['p'], (⟨[], 0, true, false⟩ : RawEntry))] ['p']
        = some ⟨[], 0, true, false⟩)
    ∧ viewLookup
        [[(['p'], (⟨[], 0, true, false⟩ : RawEntry))],
          [(['p'], (⟨[9], 5, false, false⟩ : RawEntry))]] ['p']
      = some ⟨[9], 5, 1, 1⟩ := by
  refine ⟨⟨?_, ?_, ?_, ?_⟩, ?_⟩
  · intro L hL
    rcases List.mem_cons.mp hL with h | h
    · rw [h]; simp [keysNodup]
    · rcases List.mem_cons.mp h with h' | h'
      · rw [h']; simp [keysNodup]
      · cases h'
  · decide
  · decide
  · decide
  · exact @c4_whiteout_shadows_only_downward
      [[(['p'], (⟨[], 0, true, false⟩ : RawEntry))],
        [(['p'], (⟨[9], 5, false, false⟩ : RawEntry))]]
      0 1
      [(['p'], (⟨[], 0, true, false⟩ : RawEntry))]
      [(['p'], (⟨[9], 5, false, false⟩ : RawEntry))]
      ['p'] ⟨[9], 5, false, false⟩ ⟨[], 0, true, false⟩
      (by intro L hL
          rcases List.mem_cons.mp hL with h | h
          · rw [h]; simp [keysNodup]
          · rcases List.mem_cons.mp h with h' | h'
            · rw [h']; simp [keysNodup]
            · cases h')
      (by decide) (by decide) (by decide) (by decide) (by decide) (by decide)
      (by decide) (by decide)
      (by intro k hk L' e' hL' he'
          have : k ≥ 2 := hk
          have hnone : ([[(['p'], (⟨[], 0, true, false⟩ : RawEntry))],
              [(['p'], (⟨[9], 5, false, false⟩ : RawEntry))]] :
              List Layer)[k]? = none := by
            cases k with
            | zero => omega
            | succ k' =>
              cases k' with
              | zero => omega
              | succ k'' => rfl
          rw [hnone] at hL'
          cases hL')

theorem procEntry_result_nodup {i : Nat} {st : ViewState} {pe : Path × RawEntry}
    (h : (st.result.map Prod.fst).Nodup) :
    ((procEntry i st pe).result.map Prod.fst).Nodup := by
  unfold procEntry
  by_cases hw : pe.2.is_whiteout = true
  · rw [if_pos hw]
    exact h
  · rw [if_neg hw]
    by_cases hc : (!(memB pe.1 st.deleted) && (alookup st.result pe.1).isNone
        && !pe.2.is_dir) = true
    · rw [if_pos hc]
      show (((pe.1, mkResolved i pe.2) :: st.result).map Prod.fst).Nodup
      rw [List.map_cons, List.nodup_cons]
      refine ⟨fun hmem => ?_, h⟩
      have h2 : (alookup st.result pe.1).isNone = true :=
        (Bool.and_eq_true_iff.mp (Bool.and_eq_true_iff.mp hc).1).2
      rw [Option.isNone_iff_eq_none, alookup_eq_none_iff] at h2
      exact h2 hmem
    · rw [if_neg hc]
      exact h

theorem foldl_procEntry_result_nodup {i : Nat} (L : Layer) (st : ViewState)
    (h : (st.result.map Prod.fst).Nodup) :
    ((L.foldl (procEntry i) st).result.map Prod.fst).Nodup := by
  induction L generalizing st with
  | nil => exact h
  | cons pe rest ih =>
    rw [List.foldl_cons]
    exact ih _ (procEntry_result_nodup h)

theorem foldl_procLayer_result_nodup (ls : List (Nat × Layer)) (st : ViewState)
    (h : (st.result.map Prod.fst).Nodup) :
    ((ls.foldl procLayer st).result.map Prod.fst).Nodup := by
  induction ls generalizing st with
  | nil => exact h
  | cons il rest ih =>
    rw [List.foldl_cons]
    exact ih _ (foldl_procEntry_result_nodup il.2 st h)

/-- The union view never contains two entries for one path. -/
theorem union_view_keys_nodup (layers : List Layer) :
    ((union_view layers).map Prod.fst).Nodup :=
  foldl_procLayer_result_nodup _ _ (by simp)

theorem resolveTD_sound {layers : List Layer} {p : Path} {r : ResolvedEntry}
    {ls : List (Nat × Layer)}
    (hls : ∀ il ∈ ls, layers[il.1]? = some il.2)
    (h : resolveTD p ls = some r) :
    r.size = r.data.length ∧ r.layer_idx < layers.length ∧
      ∃ L e, layers[r.layer_idx]? = some L ∧ alookup L p = some e ∧
        e.is_whiteout = false ∧ e.is_dir = false ∧
        e.data = r.data ∧ e.mtime = r.mtime := by
  induction ls with
  | nil =>
    rw [resolveTD_nil] at h
    cases h
  | cons il rest ih =>
    have htail := fun il' h' => hls il' (List.mem_cons_of_mem _ h')
    cases ha : alookup il.2 p with
    | none =>
      rw [resolveTD_cons_none ha] at h
      exact ih htail h
    | some e =>
      by_cases hwb : e.is_whiteout
      · rw [resolveTD_cons_whiteout ha hwb] at h
        cases h
      · have hw : e.is_whiteout = false := bool_eq_false_of_not hwb
        by_cases hdb : e.is_dir
        · rw [resolveTD_cons_dir ha hw hdb] at h
          exact ih htail h
        · have hd : e.is_dir = false := bool_eq_false_of_not hdb
          rw [resolveTD_cons_file ha hw hd] at h
          have hr : r = mkResolved il.1 e := (Option.some.inj h).symm
          subst hr
          have hL := hls il (List.mem_cons_self _ _)
          exact ⟨rfl, getElem?_some_lt hL, il.2, e, hL, ha, hw, hd, rfl, rfl⟩

/-- C10: every entry of the union view is internally consistent and
backed by a regular-file entry of the layer it names. -/
theorem c10_view_entry_invariants {layers : List Layer}
    (hnd : ∀ L ∈ layers, keysNodup L) {p : Path} {r : ResolvedEntry}
    (hmem : (p, r) ∈ union_view layers) :
    r.size = r.data.length ∧ r.layer_idx < layers.length ∧
      ∃ L e, layers[r.layer_idx]? = some L ∧ alookup L p = some e ∧
        e.is_whiteout = false ∧ e.is_dir = false ∧
        e.data = r.data ∧ e.mtime = r.mtime := by
  have h : viewLookup layers p = some r :=
    mem_alookup_of_nodup (union_view_keys_nodup layers) hmem
  rw [viewLookup_eq_resolveTD hnd p] at h
  refine resolveTD_sound ?_ h
  intro il hil
  rw [List.mem_reverse] at hil
  obtain ⟨m, hm1, hm2⟩ := mem_enumFromL hil
  rw [hm1, Nat.zero_add]
  exact hm2

/-- Witness for C10 at a one-layer concrete container. -/
theorem c10_witness :
    ((∀ L ∈ [[(['a'], (⟨[7], 3, false, false⟩ : RawEntry))]], keysNodup L)
      ∧ (['a'], (⟨[7], 3, 0, 1⟩ : ResolvedEntry))
        ∈ union_view [[(['a'], (⟨[7], 3, false, false⟩ : RawEntry))]])
    ∧ ((⟨[7], 3, 0, 1⟩ : ResolvedEntry).size
        = (⟨[7], 3, 0, 1⟩ : ResolvedEntry).data.length
      ∧ (⟨[7], 3, 0, 1⟩ : ResolvedEntry).layer_idx
        < [[(['a'], (⟨[7], 3, false, false⟩ : RawEntry))]].length
      ∧ ∃ L e, [[(['a'], (⟨[7], 3, false, false⟩ : RawEntry))]][
          (⟨[7], 3, 0, 1⟩ : ResolvedEntry).layer_idx]? = some L
        ∧ alookup L ['a'] = some e
        ∧ e.is_whiteout = false ∧ e.is_dir = false
        ∧ e.data = (⟨[7], 3, 0, 1⟩ : ResolvedEntry).data
        ∧ e.mtime = (⟨[7], 3, 0, 1⟩ : ResolvedEntry).mtime) := by
  have hnd : ∀ L ∈ [[(['a'], (⟨[7], 3, false, false⟩ : RawEntry))]], keysNodup L := by
    intro L hL
    rcases List.mem_cons.mp hL with h | h
    · rw [h]; simp [keysNodup]
    · cases h
  have hmem : (['a'], (⟨[7], 3, 0, 1⟩ : ResolvedEntry))
      ∈ union_view [[(['a'], (⟨[7], 3, false, false⟩ : RawEntry))]] := by decide
  exact ⟨⟨hnd, hmem⟩, c10_view_entry_invariants hnd hmem⟩

/-! ### Claims C3 and C8 -/

/-- C3 counterexample: for the canonical path `".wh.x"` (a basename
that itself begins with `".wh."`), the whiteout tar name is
`".wh..wh.x"`, which the sentinel rule refuses to parse back, so the
roundtrip yields `none` instead of `some ".wh.x"`. -/
theorem c3_counterexample :
    from_whiteout_tar_path (to_whiteout_tar_path ['.', 'w', 'h', '.', 'x'])
      = none := by decide

/-- C3 (amended): the whiteout tar-name roundtrip
`from_whiteout_tar_path ∘ to_whiteout_tar_path` is the identity on
every canonical path whose basename does not itself start with
`".wh."`; on `".wh."`-prefixed basenames the emitted name collides
with the reserved `".wh..wh."` sentinel and parses back as `none`. -/
theorem c3_roundtrip (c : Path) (h : startsWith whp (basename c) = false) :
    from_whiteout_tar_path (to_whiteout_tar_path c) = some c :=
  roundtrip_clean h

/-- Witness for C3 (amended) at the two-component path `"a/b"`. -/
theorem c3_witness :
    startsWith whp (basename ['a', '/', 'b']) = false
    ∧ from_whiteout_tar_path (to_whiteout_tar_path ['a', '/', 'b'])
      = some ['a', '/', 'b'] :=
  ⟨by decide, c3_roundtrip ['a', '/', 'b'] (by decide)⟩

theorem parseEnt_preserves_sentinel_inv {p : Path}
    (hs : startsWith (whp ++ whp) (basename p) = true)
    {m : Layer} (hinv : ∃ e, alookup m p = some e ∧ e.is_whiteout = false)
    (ent : TarEnt) :
    ∃ e, alookup (parseEnt m ent) p = some e ∧ e.is_whiteout = false := by
  cases hf : from_whiteout_tar_path (normalize_path ent.path) with
  | some real =>
    rw [parseEnt_whiteout hf]
    have hne : real ≠ p := by
      intro he
      have hclean := from_whiteout_real_clean hf
      rw [he] at hclean
      have hwp : startsWith whp (basename p) = true :=
        startsWith_of_startsWith_append hs
      rw [hwp] at hclean
      cases hclean
    obtain ⟨e, he1, he2⟩ := hinv
    exact ⟨e, by rw [alookup_insertA_ne _ hne]; exact he1, he2⟩
  | none =>
    rw [parseEnt_content hf]
    by_cases hk : normalize_path ent.path = p
    · refine ⟨⟨ent.data, ent.mtime, false, ent.is_dir⟩, ?_, rfl⟩
      rw [hk]
      exact alookup_insertA_self _ _ _
    · obtain ⟨e, he1, he2⟩ := hinv
      exact ⟨e, by rw [alookup_insertA_ne _ hk]; exact he1, he2⟩

theorem foldl_parseEnt_sentinel {p : Path}
    (hs : startsWith (whp ++ whp) (basename p) = true)
    (hfw : from_whiteout_tar_path p = none) :
    ∀ (ents : List TarEnt) (m : Layer),
      ((∃ e, alookup m p = some e ∧ e.is_whiteout = false)
        ∨ ∃ ent ∈ ents, normalize_path ent.path = p) →
      ∃ e, alookup (ents.foldl parseEnt m) p = some e ∧ e.is_whiteout = false := by
  intro ents
  induction ents with
  | nil =>
    intro m h
    rcases h with h | ⟨ent, hent, _⟩
    · exact h
    · cases hent
  | cons ent rest ih =>
    intro m h
    rw [List.foldl_cons]
    rcases h with h | ⟨ent', hent', hkey⟩
    · exact ih _ (Or.inl (parseEnt_preserves_sentinel_inv hs h ent))
    · rcases List.mem_cons.mp hent' with he | he
      · subst he
        apply ih
        left
        have hf : from_whiteout_tar_path (normalize_path ent'.path) = none := by
          rw [hkey]
          exact hfw
        rw [parseEnt_content hf]
        refine ⟨⟨ent'.data, ent'.mtime, false, ent'.is_dir⟩, ?_, rfl⟩
        rw [hkey]
        exact alookup_insertA_self _ _ _
      · exact ih _ (Or.inr ⟨ent', he, hkey⟩)

/-- C8: a tar entry name whose basename starts with the reserved
sentinel `".wh..wh."` is not a whiteout name (`from_whiteout_tar_path`
returns `none`); `parse_tar_layer` classifies each such member as an
ordinary content entry stored under its literal canonicalized name,
and the parsed layer holds a non-whiteout entry at that name. -/
theorem c8_sentinel_is_content (p : Path)
    (hs : startsWith (whp ++ whp) (basename p) = true) :
    from_whiteout_tar_path p = none
    ∧ (∀ (m : Layer) (ent : TarEnt), normalize_path ent.path = p →
        parseEnt m ent = insertA p ⟨ent.data, ent.mtime, false, ent.is_dir⟩ m)
    ∧ (∀ ents : List TarEnt, (∃ ent ∈ ents, normalize_path ent.path = p) →
        ∃ e, alookup (parse_tar_layer ents) p = some e
          ∧ e.is_whiteout = false) := by
  have hfw : from_whiteout_tar_path p = none := from_whiteout_sentinel_none hs
  refine ⟨hfw, ?_, ?_⟩
  · intro m ent hkey
    have hf : from_whiteout_tar_path (normalize_path ent.path) = none := by
      rw [hkey]
      exact hfw
    rw [parseEnt_content hf, hkey]
  · intro ents hments
    exact foldl_parseEnt_sentinel hs hfw ents [] (Or.inr hments)

/-- Witness for C8 at the name `".wh..wh.f"`. -/
theorem c8_witness :
    startsWith (whp ++ whp) (basename ['.', 'w', 'h', '.', '.', 'w', 'h', '.', 'f'])
      = true
    ∧ from_whiteout_tar_path ['.', 'w', 'h', '.', '.', 'w', 'h', '.', 'f'] = none
    ∧ ∃ e, alookup
        (parse_tar_layer [⟨['.', 'w', 'h', '.', '.', 'w', 'h', '.', 'f'], 4, false, [2]⟩])
        ['.', 'w', 'h', '.', '.', 'w', 'h', '.', 'f'] = some e
      ∧ e.is_whiteout = false := by
  have hs : startsWith (whp ++ whp)
      (basename ['.', 'w', 'h', '.', '.', 'w', 'h', '.', 'f']) = true := by decide
  have h := c8_sentinel_is_content _ hs
  exact ⟨hs, h.1, h.2.2 [⟨['.', 'w', 'h', '.', '.', 'w', 'h', '.', 'f'], 4, false, [2]⟩]
    ⟨_, List.mem_cons_self _ _, by decide⟩⟩

/-! ### Claim C2: `parse_tar_layer ∘ build_tar_layer` -/

theorem normalize_to_whiteout {w : Path} (h : normalize_path w = w) :
    normalize_path (to_whiteout_tar_path w) = to_whiteout_tar_path w := by
  apply normalize_path_eq_self
  intro c hc he
  subst he
  unfold to_whiteout_tar_path at hc
  cases hs : lastSlashSplit w with
  | none =>
    rw [hs] at hc
    have h1 : (whp ++ w).head? = some '.' := rfl
    rw [h1] at hc
    exact absurd (Option.some.inj hc) (by decide)
  | some pr =>
    rcases pr with ⟨pre, base⟩
    rw [hs] at hc
    obtain ⟨hsp, _⟩ := lastSlashSplit_some hs
    cases hpre : pre with
    | nil =>
      rw [hpre] at hsp
      exact head_ne_slash_of_normalize_path h '/' (by rw [hsp]; rfl) rfl
    | cons x xs =>
      rw [hpre] at hc
      have hx : x = '/' := by simpa using hc
      apply head_ne_slash_of_normalize_path h '/'
      · rw [hsp, hpre, hx]
        rfl
      · rfl

/-- Behaviour of the content half of `build_tar_layer` under
`parse_tar_layer`'s fold: with canonical, non-whiteout-name, distinct
keys, each entry lands as a content `RawEntry` under its own path. -/
theorem foldl_parseEnt_content (ts : Nat) {entries : List (Path × List Nat)}
    (hgood : ∀ pd ∈ entries,
      normalize_path pd.1 = pd.1 ∧ from_whiteout_tar_path pd.1 = none)
    (hnd : (entries.map Prod.fst).Nodup) (m : Layer) (p : Path) :
    (∀ d, alookup entries p = some d →
      alookup ((entries.map
          (fun pd => (⟨normalize_path pd.1, ts, false, pd.2⟩ : TarEnt))).foldl
        parseEnt m) p = some ⟨d, ts, false, false⟩)
    ∧ (alookup entries p = none →
      alookup ((entries.map
          (fun pd => (⟨normalize_path pd.1, ts, false, pd.2⟩ : TarEnt))).foldl
        parseEnt m) p = alookup m p) := by
  induction entries generalizing m with
  | nil =>
    refine ⟨fun d hd => ?_, fun _ => rfl⟩
    rw [alookup_nil] at hd
    cases hd
  | cons qd rest ih =>
    rcases qd with ⟨q, d⟩
    obtain ⟨hq, hfq⟩ := hgood (q, d) (List.mem_cons_self _ _)
    have hgr := fun pd h => hgood pd (List.mem_cons_of_mem _ h)
    rw [List.map_cons, List.nodup_cons] at hnd
    have hstep : parseEnt m ⟨normalize_path q, ts, false, d⟩
        = insertA q ⟨d, ts, false, false⟩ m := by
      have hf : from_whiteout_tar_path
          (normalize_path ((⟨normalize_path q, ts, false, d⟩ : TarEnt).path))
            = none := by
        show from_whiteout_tar_path (normalize_path (normalize_path q)) = none
        rw [normalize_path_idem, hq]
        exact hfq
      rw [parseEnt_content hf]
      show insertA (normalize_path (normalize_path q)) _ _ = _
      rw [normalize_path_idem, hq]
    rw [List.map_cons, List.foldl_cons, hstep]
    by_cases hp : q = p
    · subst hp
      have hrest : alookup rest q = none := by
        rw [alookup_eq_none_iff]
        exact hnd.1
      constructor
      · intro d' hd'
        rw [alookup_cons, if_pos rfl] at hd'
        have hdd : d = d' := Option.some.inj hd'
        subst hdd
        rw [(ih hgr hnd.2 (insertA q ⟨d, ts, false, false⟩ m)).2 hrest]
        exact alookup_insertA_self _ _ _
      · intro hnone
        rw [alookup_cons, if_pos rfl] at hnone
        cases hnone
    · constructor
      · intro d' hd'
        rw [alookup_cons, if_neg hp] at hd'
        exact (ih hgr hnd.2 (insertA q ⟨d, ts, false, false⟩ m)).1 d' hd'
      · intro hnone
        rw [alookup_cons, if_neg hp] at hnone
        rw [(ih hgr hnd.2 (insertA q ⟨d, ts, false, false⟩ m)).2 hnone]
        exact alookup_insertA_ne _ hp

/-- Behaviour of the whiteout half of `build_tar_layer` under
`parse_tar_layer`'s fold: each canonical whiteout path with a clean
basename lands as a whiteout `RawEntry` under the real path. -/
theorem foldl_parseEnt_whiteouts (ts : Nat) {whiteouts : List Path}
    (hgood : ∀ w ∈ whiteouts,
      normalize_path w = w ∧ startsWith whp (basename w) = false)
    (m : Layer) (p : Path) :
    (p ∈ whiteouts →
      alookup ((whiteouts.map (fun c =>
          (⟨to_whiteout_tar_path (normalize_path c), ts, false, []⟩ : TarEnt))).foldl
        parseEnt m) p = some ⟨[], ts, true, false⟩)
    ∧ (p ∉ whiteouts →
      alookup ((whiteouts.map (fun c =>
          (⟨to_whiteout_tar_path (normalize_path c), ts, false, []⟩ : TarEnt))).foldl
        parseEnt m) p = alookup m p) := by
  induction whiteouts generalizing m with
  | nil => exact ⟨fun h => absurd h (by simp), fun _ => rfl⟩
  | cons w rest ih =>
    obtain ⟨hw, hcw⟩ := hgood w (List.mem_cons_self _ _)
    have hgr := fun w' h => hgood w' (List.mem_cons_of_mem _ h)
    have hstep : parseEnt m ⟨to_whiteout_tar_path (normalize_path w), ts, false, []⟩
        = insertA w ⟨[], ts, true, false⟩ m := by
      have hf : from_whiteout_tar_path (normalize_path
          ((⟨to_whiteout_tar_path (normalize_path w), ts, false, []⟩ : TarEnt).path))
            = some w := by
        show from_whiteout_tar_path
          (normalize_path (to_whiteout_tar_path (normalize_path w))) = some w
        rw [hw, normalize_to_whiteout hw]
        exact roundtrip_clean hcw
      rw [parseEnt_whiteout hf]
    rw [List.map_cons, List.foldl_cons, hstep]
    by_cases hp : w = p
    · subst hp
      constructor
      · intro _
        by_cases hrest : w ∈ rest
        · exact (ih hgr (insertA w ⟨[], ts, true, false⟩ m)).1 hrest
        · rw [(ih hgr (insertA w ⟨[], ts, true, false⟩ m)).2 hrest]
          exact alookup_insertA_self _ _ _
      · intro hnot
        exact absurd (List.mem_cons_self _ _) hnot
    · constructor
      · intro hmem
        rcases List.mem_cons.mp hmem with h' | h'
        · exact absurd h'.symm hp
        · exact (ih hgr (insertA w ⟨[], ts, true, false⟩ m)).1 h'
      · intro hnot
        have hnr : p ∉ rest := fun h' => hnot (List.mem_cons_of_mem _ h')
        rw [(ih hgr (insertA w ⟨[], ts, true, false⟩ m)).2 hnr]
        exact alookup_insertA_ne _ hp

/-- C2 counterexample: for the single content entry `(".wh.a", [1])`
and no whiteouts, the built layer parses back to a map holding a
whiteout at `"a"` and no content entry at all — the content subset of
the parse is not the given entry list. -/
theorem c2_counterexample :
    parse_tar_layer (build_tar_layer [(['.', 'w', 'h', '.', 'a'], [1])] [] 0)
      = [(['a'], ⟨[], 0, true, false⟩)] := by decide

/-- C2 (amended): provided the entry paths are canonical with
basenames not starting in `".wh."` and pairwise distinct, the whiteout
paths are canonical with basenames not starting in `".wh."`, and no
path is both an entry and a whiteout, parsing the built layer gives
back exactly the entries as content entries (same path, same bytes,
emit timestamp, regular file) and exactly the whiteouts as
whiteout-flagged entries keyed by their canonical paths. -/
theorem c2_parse_build_roundtrip {entries : List (Path × List Nat)}
    {whiteouts : List Path} {ts : Nat}
    (hce : ∀ pd ∈ entries,
      normalize_path pd.1 = pd.1 ∧ startsWith whp (basename pd.1) = false)
    (hnd : (entries.map Prod.fst).Nodup)
    (hcw : ∀ w ∈ whiteouts,
      normalize_path w = w ∧ startsWith whp (basename w) = false)
    (hdisj : ∀ pd ∈ entries, pd.1 ∉ whiteouts) :
    ∀ p : Path,
      (p ∈ whiteouts →
        alookup (parse_tar_layer (build_tar_layer entries whiteouts ts)) p
          = some ⟨[], ts, true, false⟩)
      ∧ (p ∉ whiteouts →
        alookup (parse_tar_layer (build_tar_layer entries whiteouts ts)) p
          = (alookup entries p).map (fun d => ⟨d, ts, false, false⟩))
      ∧ (∀ d, (p, d) ∈ entries ↔
        alookup (parse_tar_layer (build_tar_layer entries whiteouts ts)) p
          = some ⟨d, ts, false, false⟩)
      ∧ (p ∈ whiteouts ↔
        alookup (parse_tar_layer (build_tar_layer entries whiteouts ts)) p
          = some ⟨[], ts, true, false⟩) := by
  intro p
  have hgood : ∀ pd ∈ entries,
      normalize_path pd.1 = pd.1 ∧ from_whiteout_tar_path pd.1 = none := by
    intro pd h
    obtain ⟨h1, h2⟩ := hce pd h
    exact ⟨h1, from_whiteout_clean_none h2⟩
  have hsplit : parse_tar_layer (build_tar_layer entries whiteouts ts)
      = (whiteouts.map (fun c =>
          (⟨to_whiteout_tar_path (normalize_path c), ts, false, []⟩ : TarEnt))).foldl
        parseEnt
        ((entries.map
          (fun pd => (⟨normalize_path pd.1, ts, false, pd.2⟩ : TarEnt))).foldl
          parseEnt []) := by
    unfold parse_tar_layer build_tar_layer
    rw [List.foldl_append]
  set mA := (entries.map
      (fun pd => (⟨normalize_path pd.1, ts, false, pd.2⟩ : TarEnt))).foldl
    parseEnt ([] : Layer) with hmA
  have hA := foldl_parseEnt_content ts hgood hnd ([] : Layer) p
  have hAmap : alookup mA p = (alookup entries p).map (fun d => ⟨d, ts, false, false⟩) := by
    cases he : alookup entries p with
    | some d =>
      rw [Option.map_some']
      exact hA.1 d he
    | none =>
      rw [Option.map_none']
      rw [hA.2 he]
      rfl
  have hW := foldl_parseEnt_whiteouts ts hcw mA p
  have h1 : p ∈ whiteouts →
      alookup (parse_tar_layer (build_tar_layer entries whiteouts ts)) p
        = some ⟨[], ts, true, false⟩ := by
    intro hmem
    rw [hsplit]
    exact hW.1 hmem
  have h2 : p ∉ whiteouts →
      alookup (parse_tar_layer (build_tar_layer entries whiteouts ts)) p
        = (alookup entries p).map (fun d => ⟨d, ts, false, false⟩) := by
    intro hnot
    rw [hsplit, hW.2 hnot]
    exact hAmap
  refine ⟨h1, h2, ?_, ?_⟩
  · intro d
    constructor
    · intro hmem
      have hpd : p ∉ whiteouts := hdisj (p, d) hmem
      rw [h2 hpd, mem_alookup_of_nodup hnd hmem]
      rfl
    · intro hlook
      by_cases hpw : p ∈ whiteouts
      · rw [h1 hpw] at hlook
        have := Option.some.inj hlook
        cases this
      · rw [h2 hpw] at hlook
        cases he : alookup entries p with
        | none =>
          rw [he] at hlook
          cases hlook
        | some d' =>
          rw [he] at hlook
          have := Option.some.inj hlook
          have hd : d' = d := congrArg RawEntry.data this
          subst hd
          exact alookup_mem he
  · constructor
    · exact h1
    · intro hlook
      by_cases hpw : p ∈ whiteouts
      · exact hpw
      · rw [h2 hpw] at hlook
        cases he : alookup entries p with
        | none =>
          rw [he] at hlook
          cases hlook
        | some d' =>
          rw [he] at hlook
          have := Option.some.inj hlook
          have : (false : Bool) = true := congrArg RawEntry.is_whiteout this
          cases this

/-- Witness for C2 (amended): one content entry `("a", [7])` and one
whiteout `"b"`. -/
theorem c2_witness :
    ((∀ pd ∈ [((['a'] : Path), [7])],
        normalize_path pd.1 = pd.1 ∧ startsWith whp (basename pd.1) = false)
      ∧ ([((['a'] : Path), [7])].map Prod.fst).Nodup
      ∧ (∀ w ∈ [(['b'] : Path)],
        normalize_path w = w ∧ startsWith whp (basename w) = false)
      ∧ (∀ pd ∈ [((['a'] : Path), [7])], pd.1 ∉ [(['b'] : Path)]))
    ∧ (((['b'] : Path) ∈ [(['b'] : Path)] →
        alookup (parse_tar_layer (build_tar_layer [(['a'], [7])] [['b']] 5)) ['b']
          = some ⟨[], 5, true, false⟩)
      ∧ ((['b'] : Path) ∉ [(['b'] : Path)] →
        alookup (parse_tar_layer (build_tar_layer [(['a'], [7])] [['b']] 5)) ['b']
          = (alookup [(['a'], [7])] ['b']).map (fun d => ⟨d, 5, false, false⟩))
      ∧ (∀ d, ((['b'] : Path), d) ∈ [((['a'] : Path), [7])] ↔
        alookup (parse_tar_layer (build_tar_layer [(['a'], [7])] [['b']] 5)) ['b']
          = some ⟨d, 5, false, false⟩)
      ∧ ((['b'] : Path) ∈ [(['b'] : Path)] ↔
        alookup (parse_tar_layer (build_tar_layer [(['a'], [7])] [['b']] 5)) ['b']
          = some ⟨[], 5, true, false⟩)) := by
  have hce : ∀ pd ∈ [((['a'] : Path), [7])],
      normalize_path pd.1 = pd.1 ∧ startsWith whp (basename pd.1) = false := by
    intro pd h
    rcases List.mem_cons.mp h with h' | h'
    · rw [h']; exact ⟨by decide, by decide⟩
    · cases h'
  have hnd : ([((['a'] : Path), [7])].map Prod.fst).Nodup := by simp
  have hcw : ∀ w ∈ [(['b'] : Path)],
      normalize_path w = w ∧ startsWith whp (basename w) = false := by
    intro w h
    rcases List.mem_cons.mp h with h' | h'
    · rw [h']; exact ⟨by decide, by decide⟩
    · cases h'
  have hdisj : ∀ pd ∈ [((['a'] : Path), [7])], pd.1 ∉ [(['b'] : Path)] := by
    intro pd h
    rcases List.mem_cons.mp h with h' | h'
    · rw [h']; decide
    · cases h'
  exact ⟨⟨hce, hnd, hcw, hdisj⟩,
    c2_parse_build_roundtrip hce hnd hcw hdisj ['b']⟩

/-! ### SHA-256 (`sha256_hex` from `src/lib.rs`, via the `sha2` crate)

A direct executable transcription of FIPS 180-4 over byte lists, with
32-bit words as `Nat` reduced modulo `2 ^ 32`. -/

def w32 (x : Nat) : Nat := x % 4294967296

def rotr32 (n x : Nat) : Nat := w32 (x / 2 ^ n + x % 2 ^ n * 2 ^ (32 - n))

def shaK : List Nat :=
  [1116352408, 1899447441, 3049323471, 3921009573, 961987163,
   1508970993, 2453635748, 2870763221, 3624381080, 310598401,
   607225278, 1426881987, 1925078388, 2162078206, 2614888103,
   3248222580, 3835390401, 4022224774, 264347078, 604807628,
   770255983, 1249150122, 1555081692, 1996064986, 2554220882,
   2821834349, 2952996808, 3210313671, 3336571891, 3584528711,
   113926993, 338241895, 666307205, 773529912, 1294757372,
   1396182291, 1695183700, 1986661051, 2177026350, 2456956037,
   2730485921, 2820302411, 3259730800, 3345764771, 3516065817,
   3600352804, 4094571909, 275423344, 430227734, 506948616,
   659060556, 883997877, 958139571, 1322822218, 1537002063,
   1747873779, 1955562222, 2024104815, 2227730452, 2361852424,
   2428436474, 2756734187, 3204031479, 3329325298]

def shaH0 : List Nat :=
  [1779033703, 3144134277, 1013904242, 2773480762,
   1359893119, 2600822924, 528734635, 1541459225]

/-- Big-endian bytes of `n`, `w` bytes wide. -/
def beBytes : Nat → Nat → List Nat
  | 0, _ => []
  | wd + 1, n => beBytes wd (n / 256) ++ [n % 256]

/-- SHA-256 padding: `0x80`, zeros to 56 mod 64, 8-byte big-endian bit
length. -/
def shaPad (msg : List Nat) : List Nat :=
  msg ++ 0x80 :: List.replicate ((119 - msg.length % 64) % 64) 0
    ++ beBytes 8 (msg.length * 8)

/-- Big-endian 32-bit words of a byte list (length a multiple of 4). -/
def toWords : List Nat → List Nat
  | b0 :: b1 :: b2 :: b3 :: rest =>
    (((b0 * 256 + b1) * 256 + b2) * 256 + b3) :: toWords rest
  | _ => []

/-- Extend the 16-word schedule to 64 words; `fuel` is the number of
words still to append. -/
def shaExtend : Nat → List Nat → List Nat
  | 0, ws => ws
  | fuel + 1, ws =>
    let n := ws.length
    let w15 := ws.getD (n - 15) 0
    let w2 := ws.getD (n - 2) 0
    let s0 := (rotr32 7 w15) ^^^ (rotr32 18 w15) ^^^ (w15 / 2 ^ 3)
    let s1 := (rotr32 17 w2) ^^^ (rotr32 19 w2) ^^^ (w2 / 2 ^ 10)
    shaExtend fuel (ws ++ [w32 (ws.getD (n - 16) 0 + s0 + ws.getD (n - 7) 0 + s1)])

/-- One compression round. -/
def shaRound (st : List Nat) (kw : Nat × Nat) : List Nat :=
  let a := st.getD 0 0
  let b := st.getD 1 0
  let c := st.getD 2 0
  let d := st.getD 3 0
  let e := st.getD 4 0
  let f := st.getD 5 0
  let g := st.getD 6 0
  let h := st.getD 7 0
  let s1 := (rotr32 6 e) ^^^ (rotr32 11 e) ^^^ (rotr32 25 e)
  let ch := (e &&& f) ^^^ ((2 ^ 32 - 1 - e) &&& g)
  let t1 := w32 (h + s1 + ch + kw.1 + kw.2)
  let s0 := (rotr32 2 a) ^^^ (rotr32 13 a) ^^^ (rotr32 22 a)
  let mj := (a &&& b) ^^^ (a &&& c) ^^^ (b &&& c)
  let t2 := w32 (s0 + mj)
  [w32 (t1 + t2), a, b, c, w32 (d + t1), e, f, g]

/-- Compress one 64-byte block into the running hash state. -/
def shaCompress (st : List Nat) (block : List Nat) : List Nat :=
  let ws := shaExtend 48 (toWords block)
  let fin := (shaK.zip ws).foldl shaRound st
  (st.zip fin).map (fun ab => w32 (ab.1 + ab.2))

/-- Process the padded message 64 bytes at a time; `fuel` bounds the
number of blocks. -/
def shaBlocks : Nat → List Nat → List Nat → List Nat
  | 0, _, st => st
  | fuel + 1, bytes, st =>
    match bytes with
    | [] => st
    | _ :: _ => shaBlocks fuel (bytes.drop 64) (shaCompress st (bytes.take 64))

def sha256 (msg : List Nat) : List Nat :=
  let padded := shaPad msg
  let fin := shaBlocks padded.length padded shaH0
  fin.foldr (fun word acc => beBytes 4 word ++ acc) []

/-- The lower-case hex digit for a nibble: `0`-`9` then `a`-`f`. -/
def hexDigit (n : Nat) : Char :=
  if n < 10 then Char.ofNat (48 + n) else Char.ofNat (87 + n)

/-- `sha256_hex` from `src/lib.rs`: lower-case hex SHA-256 digest. -/
def sha256_hex (data : List Nat) : List Char :=
  (sha256 data).foldr (fun b acc => hexDigit (b / 16) :: hexDigit (b % 16) :: acc) []

/-! ### Container codec and operations -/

/-- `LayerRecord` from `src/lib.rs` (timestamps and kinds as opaque
strings, digests as hex character lists). -/
structure LayerRecord where
  offset : Nat
  size : Nat
  kind : String
  digest : Option (List Char)
  created_at : String
  deriving DecidableEq

/-- `TcowIndex` from `src/lib.rs`. -/
structure TcowIndex where
  version : Nat
  layers : List LayerRecord
  last_modified : String
  label : Option String
  deriving DecidableEq

/-- `TcowFile`: the in-memory container (the filesystem path is
irrelevant to the embedded semantics). -/
structure TcowFile where
  index : TcowIndex
  layers : List Layer

def HEADER_SIZE : Nat := 16

/-- Little-endian byte encoding, fixed width. -/
def leBytes : Nat → Nat → List Nat
  | 0, _ => []
  | wd + 1, n => n % 256 :: leBytes wd (n / 256)

/-- Little-endian byte decoding. -/
def leDecode : List Nat → Nat
  | [] => 0
  | b :: rest => b + 256 * leDecode rest

/-- `write_file_header` from `src/lib.rs`: magic `TCOW`, version 1,
flags (bit 0 = has-base), 8 reserved zero bytes. -/
def write_file_header (has_base : Bool) : List Nat :=
  [0x54, 0x43, 0x4F, 0x57] ++ leBytes 2 1
    ++ leBytes 2 (if has_base then 1 else 0) ++ List.replicate 8 0

/-- `write_trailer_footer` from `src/lib.rs`: trailer offset (u64 LE),
trailer length (u32 LE), tail magic `W0CT`. -/
def write_trailer_footer (trailer_offset trailer_len : Nat) : List Nat :=
  leBytes 8 trailer_offset ++ leBytes 4 trailer_len ++ [0x57, 0x30, 0x43, 0x54]

/-- `TcowFile::create` from `src/lib.rs`.  The external tar container
serialiser and the CBOR encoder of the `ciborium` crate are abstracted
as the parameters `ser` and `enc`; `now` and `ts` are the sampled
timestamps.  Returns the in-memory container and the emitted file
bytes. -/
def create (ser : List TarEnt → List Nat) (enc : TcowIndex → List Nat)
    (entries : List (Path × List Nat)) (whiteouts : List Path)
    (label : Option String) (now : String) (ts : Nat) : TcowFile × List Nat :=
  let has_content := !entries.isEmpty || !whiteouts.isEmpty
  let tarEnts := build_tar_layer entries whiteouts ts
  let layer_bytes := ser tarEnts
  let digest := sha256_hex layer_bytes
  let layer_offset := HEADER_SIZE
  let layer_size := layer_bytes.length
  let index : TcowIndex :=
    ⟨1, [⟨layer_offset, layer_size, "Base", some digest, now⟩], now, label⟩
  let trailer_offset := layer_offset + layer_size
  let cbor_bytes := enc index
  let file := write_file_header has_content ++ (layer_bytes ++ (cbor_bytes
    ++ write_trailer_footer trailer_offset cbor_bytes.length))
  (⟨index, [parse_tar_layer tarEnts]⟩, file)

/-- `TcowFile::append_delta` from `src/lib.rs`: read the old trailer
offset from the footer (last 16 bytes), truncate there, write the new
delta layer, the updated index's CBOR trailer, and a new footer. -/
def append_delta (ser : List TarEnt → List Nat) (enc : TcowIndex → List Nat)
    (oldFile : List Nat) (existing : TcowFile)
    (entries : List (Path × List Nat)) (whiteouts : List Path)
    (now : String) (ts : Nat) : TcowFile × List Nat :=
  let footer := oldFile.drop (oldFile.length - 16)
  let old_trailer_offset := leDecode (footer.take 8)
  let tarEnts := build_tar_layer entries whiteouts ts
  let layer_bytes := ser tarEnts
  let digest := sha256_hex layer_bytes
  let newRec : LayerRecord :=
    ⟨old_trailer_offset, layer_bytes.length, "Delta", some digest, now⟩
  let index : TcowIndex :=
    ⟨existing.index.version, existing.index.layers ++ [newRec], now,
      existing.index.label⟩
  let new_trailer_offset := old_trailer_offset + layer_bytes.length
  let cbor_bytes := enc index
  let file := oldFile.take old_trailer_offset ++ (layer_bytes ++ (cbor_bytes
    ++ write_trailer_footer new_trailer_offset cbor_bytes.length))
  (⟨index, existing.layers ++ [parse_tar_layer tarEnts]⟩, file)

/-! ### Claim C9 -/

/-- C9: `create` emits an index holding exactly one `LayerRecord` of
kind `"Base"` at offset 16 whose digest is the lower-case hex SHA-256
of the emitted layer bytes and whose `created_at` equals the index's
`last_modified`; byte 6 of the emitted file (bit 0 of the header's
flags word) is 1 exactly when one of the two inputs is non-empty. -/
theorem c9_create (ser : List TarEnt → List Nat) (enc : TcowIndex → List Nat)
    (entries : List (Path × List Nat)) (whiteouts : List Path)
    (label : Option String) (now : String) (ts : Nat) :
    (create ser enc entries whiteouts label now ts).1.index.layers
      = [⟨16, (ser (build_tar_layer entries whiteouts ts)).length, "Base",
          some (sha256_hex (ser (build_tar_layer entries whiteouts ts))), now⟩]
    ∧ (create ser enc entries whiteouts label now ts).1.index.last_modified = now
    ∧ (∀ r ∈ (create ser enc entries whiteouts label now ts).1.index.layers,
        r.created_at
          = (create ser enc entries whiteouts label now ts).1.index.last_modified)
    ∧ (create ser enc entries whiteouts label now ts).2[6]?
      = some (if entries.isEmpty && whiteouts.isEmpty then 0 else 1) := by
  refine ⟨rfl, rfl, ?_, ?_⟩
  · intro r hr
    rcases List.mem_cons.mp hr with h | h
    · rw [h]; rfl
    · cases h
  · show (write_file_header (!entries.isEmpty || !whiteouts.isEmpty)
        ++ (ser (build_tar_layer entries whiteouts ts)
        ++ (enc (create ser enc entries whiteouts label now ts).1.index
        ++ write_trailer_footer
          (HEADER_SIZE + (ser (build_tar_layer entries whiteouts ts)).length)
          (enc (create ser enc entries whiteouts label now ts).1.index).length)))[6]?
      = some (if entries.isEmpty && whiteouts.isEmpty then 0 else 1)
    cases entries with
    | nil =>
      cases whiteouts with
      | nil => rfl
      | cons w ws => rfl
    | cons e es => rfl

/-! ### Claim C7 -/

theorem take_append_left {α : Type} (a b : List α) (n : Nat) (h : n ≤ a.length) :
    (a.take n ++ b).take n = a.take n := by
  induction a generalizing n b with
  | nil =>
    have : n = 0 := by simpa using h
    rw [this]
    rfl
  | cons x xs ih =>
    cases n with
    | zero => rfl
    | succ m =>
      rw [List.take_succ_cons, List.cons_append, List.take_succ_cons]
      rw [ih _ _ (by simpa using h)]

/-- C7: `append_delta` appends exactly one `"Delta"` record whose
offset is the trailer offset decoded from the old footer, keeps every
pre-existing record (and the whole index prefix) unchanged, keeps the
file bytes below the old trailer offset unchanged, and stamps
`last_modified` with the new record's `created_at`. -/
theorem c7_append_delta (ser : List TarEnt → List Nat)
    (enc : TcowIndex → List Nat) (oldFile : List Nat) (existing : TcowFile)
    (entries : List (Path × List Nat)) (whiteouts : List Path)
    (now : String) (ts : Nat)
    (hoff : leDecode ((oldFile.drop (oldFile.length - 16)).take 8)
      ≤ oldFile.length) :
    (append_delta ser enc oldFile existing entries whiteouts now ts).1.index.layers
      = existing.index.layers
        ++ [⟨leDecode ((oldFile.drop (oldFile.length - 16)).take 8),
            (ser (build_tar_layer entries whiteouts ts)).length, "Delta",
            some (sha256_hex (ser (build_tar_layer entries whiteouts ts))), now⟩]
    ∧ (append_delta ser enc oldFile existing entries whiteouts now ts).1.index.last_modified
      = now
    ∧ (append_delta ser enc oldFile existing entries whiteouts now ts).2.take
        (leDecode ((oldFile.drop (oldFile.length - 16)).take 8))
      = oldFile.take (leDecode ((oldFile.drop (oldFile.length - 16)).take 8)) := by
  refine ⟨rfl, rfl, ?_⟩
  show ((oldFile.take (leDecode ((oldFile.drop (oldFile.length - 16)).take 8)))
      ++ (ser (build_tar_layer entries whiteouts ts)
      ++ ((enc (append_delta ser enc oldFile existing entries whiteouts now ts).1.index)
      ++ write_trailer_footer
        (leDecode ((oldFile.drop (oldFile.length - 16)).take 8)
          + (ser (build_tar_layer entries whiteouts ts)).length)
        (enc (append_delta ser enc oldFile existing entries whiteouts now ts).1.index).length))).take
      (leDecode ((oldFile.drop (oldFile.length - 16)).take 8))
    = oldFile.take (leDecode ((oldFile.drop (oldFile.length - 16)).take 8))
  exact take_append_left _ _ _ hoff

/-- Witness for C7: a 32-byte zero file (decoded trailer offset 0) and
an empty container. -/
theorem c7_witness :
    leDecode (((List.replicate 32 0).drop ((List.replicate 32 0).length - 16)).take 8)
      ≤ (List.replicate 32 0).length
    ∧ ((append_delta (fun _ => []) (fun _ => []) (List.replicate 32 0)
          ⟨⟨1, [], "t0", none⟩, []⟩ [] [] "t1" 0).1.index.layers
        = ([] : List LayerRecord)
          ++ [⟨leDecode (((List.replicate 32 0).drop
                ((List.replicate 32 0).length - 16)).take 8),
              ((fun (_ : List TarEnt) => ([] : List Nat))
                (build_tar_layer [] [] 0)).length, "Delta",
              some (sha256_hex ((fun (_ : List TarEnt) => ([] : List Nat))
                (build_tar_layer [] [] 0))), "t1"⟩]
        ∧ (append_delta (fun _ => []) (fun _ => []) (List.replicate 32 0)
            ⟨⟨1, [], "t0", none⟩, []⟩ [] [] "t1" 0).1.index.last_modified = "t1"
        ∧ (append_delta (fun _ => []) (fun _ => []) (List.replicate 32 0)
            ⟨⟨1, [], "t0", none⟩, []⟩ [] [] "t1" 0).2.take
            (leDecode (((List.replicate 32 0).drop
              ((List.replicate 32 0).length - 16)).take 8))
          = (List.replicate 32 0).take
            (leDecode (((List.replicate 32 0).drop
              ((List.replicate 32 0).length - 16)).take 8))) :=
  ⟨by decide,
    c7_append_delta (fun _ => []) (fun _ => []) (List.replicate 32 0)
      ⟨⟨1, [], "t0", none⟩, []⟩ [] [] "t1" 0 (by decide)⟩

/-! ### Claim C6: `cmd_verify` (from `src/main.rs`) -/

inductive VerifyErr where
  | io : VerifyErr
  | integrity : Nat → VerifyErr
  deriving DecidableEq

/-- `read_exact` over a byte range of the file. -/
def readRange (file : List Nat) (off sz : Nat) : Option (List Nat) :=
  if off + sz ≤ file.length then some ((file.drop off).take sz) else none

/-- The verification loop of `cmd_verify`: returns the mismatch count
and the list of indices whose stored digest is absent, or `none` on a
short read. -/
def scanFrom (file : List Nat) : Nat → List LayerRecord → Option (Nat × List Nat)
  | _, [] => some (0, [])
  | i, r :: rest =>
    match readRange file r.offset r.size with
    | none => none
    | some raw =>
      match scanFrom file (i + 1) rest with
      | none => none
      | some pr =>
        match r.digest with
        | none => some (pr.1, i :: pr.2)
        | some stored =>
          if stored = sha256_hex raw then some (pr.1, pr.2)
          else some (pr.1 + 1, pr.2)

/-- The `fix_missing` pass: recompute and store digests for the listed
indices. -/
def fixLayers (file : List Nat) (missing : List Nat) :
    Nat → List LayerRecord → Option (List LayerRecord)
  | _, [] => some []
  | i, r :: rest =>
    match fixLayers file missing (i + 1) rest with
    | none => none
    | some rest' =>
      if i ∈ missing then
        match readRange file r.offset r.size with
        | none => none
        | some raw => some ({ r with digest := some (sha256_hex raw) } :: rest')
      else some (r :: rest')

/-- The trailer rewrite of the `fix_missing` pass: rebuild the index
with filled-in digests, truncate at the trailer start (the last
record's `offset + size`), and write the new trailer and footer. -/
def verifyFix (enc : TcowIndex → List Nat) (file : List Nat) (index : TcowIndex)
    (missing : List Nat) (now : String) : Option (List Nat) :=
  match fixLayers file missing 0 index.layers, index.layers.getLast? with
  | some newLayers, some lastRec =>
    let newIndex : TcowIndex := ⟨index.version, newLayers, now, index.label⟩
    let toff := lastRec.offset + lastRec.size
    let cbor := enc newIndex
    some (file.take toff ++ (cbor ++ write_trailer_footer toff cbor.length))
  | _, _ => none

/-- `cmd_verify` from `src/main.rs`: scan all layers, optionally
rewrite the trailer with filled-in digests, fail with an integrity
error exactly when the mismatch count is non-zero.  Returns the
verdict and the resulting file bytes. -/
def cmd_verify (enc : TcowIndex → List Nat) (file : List Nat)
    (index : TcowIndex) (fix_missing : Bool) (now : String) :
    Except VerifyErr Unit × List Nat :=
  match scanFrom file 0 index.layers with
  | none => (Except.error VerifyErr.io, file)
  | some pr =>
    match (if fix_missing && !pr.2.isEmpty then verifyFix enc file index pr.2 now
        else some file) with
    | none => (Except.error VerifyErr.io, file)
    | some file2 =>
      (if pr.1 = 0 then Except.ok () else Except.error (VerifyErr.integrity pr.1),
        file2)

/-- A record's stored digest disagrees with the hash of its byte
range. -/
def Mismatch (file : List Nat) (r : LayerRecord) : Prop :=
  ∃ stored, r.digest = some stored
    ∧ stored ≠ sha256_hex ((file.drop r.offset).take r.size)

theorem scanFrom_spec (file : List Nat) (recs : List LayerRecord) (i : Nat)
    (hb : ∀ r ∈ recs, r.offset + r.size ≤ file.length) :
    ∃ errs missing, scanFrom file i recs = some (errs, missing)
      ∧ (errs = 0 ↔ ∀ r ∈ recs, ¬Mismatch file r)
      ∧ (∀ k, k ∈ missing ↔
          ∃ j r, recs[j]? = some r ∧ r.digest = none ∧ k = i + j) := by
  induction recs generalizing i with
  | nil =>
    refine ⟨0, [], rfl, by simp, fun k => ?_⟩
    constructor
    · intro h; cases h
    · rintro ⟨j, r, hj, _⟩
      simp at hj
  | cons r rest ih =>
    have hread : readRange file r.offset r.size
        = some ((file.drop r.offset).take r.size) := by
      unfold readRange
      rw [if_pos (hb r (List.mem_cons_self _ _))]
    obtain ⟨errs, missing, hscan, herr, hmiss⟩ :=
      ih (i + 1) (fun r' h' => hb r' (List.mem_cons_of_mem _ h'))
    have hrest : ∀ P : Prop, ((∀ x ∈ r :: rest, ¬Mismatch file x) ↔ P) → True :=
      fun _ _ => trivial
    cases hd : r.digest with
    | none =>
      refine ⟨errs, i :: missing, ?_, ?_, ?_⟩
      · rw [scanFrom, hread, hscan, hd]
      · rw [herr]
        constructor
        · intro h x hx
          rcases List.mem_cons.mp hx with h' | h'
          · rw [h']
            rintro ⟨stored, hs, _⟩
            rw [hd] at hs
            cases hs
          · exact h x h'
        · exact fun h x hx => h x (List.mem_cons_of_mem _ hx)
      · intro k
        constructor
        · intro hk
          rcases List.mem_cons.mp hk with h' | h'
          · exact ⟨0, r, by simp, hd, by omega⟩
          · obtain ⟨j, r', hj, hdig, hkj⟩ := (hmiss k).mp h'
            exact ⟨j + 1, r', by simpa using hj, hdig, by omega⟩
        · rintro ⟨j, r', hj, hdig, hkj⟩
          cases j with
          | zero =>
            have h0 : r = r' := by simpa using hj
            subst h0
            have hki : k = i := by omega
            rw [hki]
            exact List.mem_cons_self _ _
          | succ j' =>
            refine List.mem_cons_of_mem _ ((hmiss k).mpr ⟨j', r', by simpa using hj,
              hdig, by omega⟩)
    | some stored =>
      by_cases hceq : stored = sha256_hex ((file.drop r.offset).take r.size)
      · refine ⟨errs, missing, ?_, ?_, ?_⟩
        · rw [scanFrom, hread, hscan, hd]
          show (if stored = sha256_hex ((file.drop r.offset).take r.size)
              then some (errs, missing) else some (errs + 1, missing))
            = some (errs, missing)
          rw [if_pos hceq]
        · rw [herr]
          constructor
          · intro h x hx
            rcases List.mem_cons.mp hx with h' | h'
            · rw [h']
              rintro ⟨stored', hs, hne⟩
              rw [hd] at hs
              have : stored = stored' := Option.some.inj hs
              subst this
              exact hne hceq
            · exact h x h'
          · exact fun h x hx => h x (List.mem_cons_of_mem _ hx)
        · intro k
          rw [hmiss k]
          constructor
          · rintro ⟨j, r', hj, hdig, hkj⟩
            exact ⟨j + 1, r', by simpa using hj, hdig, by omega⟩
          · rintro ⟨j, r', hj, hdig, hkj⟩
            cases j with
            | zero =>
              have h0 : r = r' := by simpa using hj
              subst h0
              rw [hd] at hdig
              cases hdig
            | succ j' =>
              exact ⟨j', r', by simpa using hj, hdig, by omega⟩
      · refine ⟨errs + 1, missing, ?_, ?_, ?_⟩
        · rw [scanFrom, hread, hscan, hd]
          show (if stored = sha256_hex ((file.drop r.offset).take r.size)
              then some (errs, missing) else some (errs + 1, missing))
            = some (errs + 1, missing)
          rw [if_neg hceq]
        · constructor
          · intro h
            cases h
          · intro h
            exact absurd ⟨stored, hd, hceq⟩ (h r (List.mem_cons_self _ _))
        · intro k
          rw [hmiss k]
          constructor
          · rintro ⟨j, r', hj, hdig, hkj⟩
            exact ⟨j + 1, r', by simpa using hj, hdig, by omega⟩
          · rintro ⟨j, r', hj, hdig, hkj⟩
            cases j with
            | zero =>
              have h0 : r = r' := by simpa using hj
              subst h0
              rw [hd] at hdig
              cases hdig
            | succ j' =>
              exact ⟨j', r', by simpa using hj, hdig, by omega⟩

theorem fixLayers_isSome (file : List Nat) (missing : List Nat)
    (recs : List LayerRecord) (i : Nat)
    (hb : ∀ r ∈ recs, r.offset + r.size ≤ file.length) :
    ∃ ls, fixLayers file missing i recs = some ls := by
  induction recs generalizing i with
  | nil => exact ⟨[], rfl⟩
  | cons r rest ih =>
    obtain ⟨ls, hls⟩ := ih (i + 1) (fun r' h' => hb r' (List.mem_cons_of_mem _ h'))
    have hread : readRange file r.offset r.size
        = some ((file.drop r.offset).take r.size) := by
      unfold readRange
      rw [if_pos (hb r (List.mem_cons_self _ _))]
    by_cases hm : i ∈ missing
    · refine ⟨{ r with digest := some (sha256_hex ((file.drop r.offset).take r.size)) }
        :: ls, ?_⟩
      rw [fixLayers, hls]
      show (if i ∈ missing then
          match readRange file r.offset r.size with
          | none => none
          | some raw => some ({ r with digest := some (sha256_hex raw) } :: ls)
        else some (r :: ls)) = _
      rw [if_pos hm, hread]
    · refine ⟨r :: ls, ?_⟩
      rw [fixLayers, hls]
      show (if i ∈ missing then
          match readRange file r.offset r.size with
          | none => none
          | some raw => some ({ r with digest := some (sha256_hex raw) } :: ls)
        else some (r :: ls)) = _
      rw [if_neg hm]

theorem getLast?_of_ne_nil {α : Type} {l : List α} (h : l ≠ []) :
    ∃ x, l.getLast? = some x := by
  induction l with
  | nil => exact absurd rfl h
  | cons a rest ih =>
    cases rest with
    | nil => exact ⟨a, rfl⟩
    | cons b rest' =>
      obtain ⟨x, hx⟩ := ih (by simp)
      exact ⟨x, by rw [List.getLast?_cons_cons]; exact hx⟩

theorem verifyFix_isSome (enc : TcowIndex → List Nat) {file : List Nat}
    {index : TcowIndex} (missing : List Nat) (now : String)
    (hb : ∀ r ∈ index.layers, r.offset + r.size ≤ file.length)
    (hne : index.layers ≠ []) :
    ∃ f2, verifyFix enc file index missing now = some f2 := by
  obtain ⟨ls, hls⟩ := fixLayers_isSome file missing index.layers 0 hb
  obtain ⟨lastRec, hlast⟩ := getLast?_of_ne_nil hne
  refine ⟨file.take (lastRec.offset + lastRec.size)
    ++ (enc ⟨index.version, ls, now, index.label⟩
      ++ write_trailer_footer (lastRec.offset + lastRec.size)
        (enc ⟨index.version, ls, now, index.label⟩).length), ?_⟩
  unfold verifyFix
  rw [hls, hlast]

theorem cmd_verify_verdict (enc : TcowIndex → List Nat) (file : List Nat)
    (index : TcowIndex) (fm : Bool) (now : String) {errs : Nat}
    {missing : List Nat}
    (hscan : scanFrom file 0 index.layers = some (errs, missing))
    (hb : ∀ r ∈ index.layers, r.offset + r.size ≤ file.length)
    (hne : missing ≠ [] → index.layers ≠ []) :
    (cmd_verify enc file index fm now).1
      = if errs = 0 then Except.ok ()
        else Except.error (VerifyErr.integrity errs) := by
  unfold cmd_verify
  rw [hscan]
  show (match (if fm && !missing.isEmpty then verifyFix enc file index missing now
      else some file) with
    | none => (Except.error VerifyErr.io, file)
    | some file2 =>
      (if errs = 0 then Except.ok () else Except.error (VerifyErr.integrity errs),
        file2)).1 = _
  by_cases hc : (fm && !missing.isEmpty) = true
  · rw [if_pos hc]
    have hmne : missing ≠ [] := by
      intro hz
      rw [hz] at hc
      simp at hc
    obtain ⟨f2, hf2⟩ := verifyFix_isSome enc missing now hb (hne hmne)
    rw [hf2]
  · rw [if_neg hc]

/-- C6: `cmd_verify` fails with an integrity error exactly when some
layer's stored digest is present and differs from the SHA-256 of its
byte range; indices with absent digests are collected as "missing"
(and, with `fix_missing`, get their digests recomputed) but never make
the operation fail, whatever the flag. -/
theorem c6_verify_integrity (enc : TcowIndex → List Nat) (file : List Nat)
    (index : TcowIndex) (fm : Bool) (now : String)
    (hb : ∀ r ∈ index.layers, r.offset + r.size ≤ file.length) :
    ((∃ n, (cmd_verify enc file index fm now).1
        = Except.error (VerifyErr.integrity n))
      ↔ ∃ r ∈ index.layers, Mismatch file r)
    ∧ ∃ errs missing, scanFrom file 0 index.layers = some (errs, missing)
      ∧ (∀ k, k ∈ missing ↔
          ∃ r, index.layers[k]? = some r ∧ r.digest = none) := by
  obtain ⟨errs, missing, hscan, herr, hmiss⟩ := scanFrom_spec file index.layers 0 hb
  have hne : missing ≠ [] → index.layers ≠ [] := by
    intro hm hz
    cases hmem : missing with
    | nil => exact hm hmem
    | cons k ks =>
      obtain ⟨j, r, hj, _, _⟩ := (hmiss k).mp (by rw [hmem]; exact List.mem_cons_self _ _)
      rw [hz] at hj
      simp at hj
  have hv := cmd_verify_verdict enc file index fm now hscan hb hne
  refine ⟨⟨?_, ?_⟩, errs, missing, hscan, fun k => ?_⟩
  · rintro ⟨n, hn⟩
    rw [hv] at hn
    by_cases he : errs = 0
    · rw [if_pos he] at hn
      cases hn
    · have hnot : ¬∀ r ∈ index.layers, ¬Mismatch file r :=
        fun hall => he (herr.mpr hall)
      push_neg at hnot
      obtain ⟨r, hr, hmm⟩ := hnot
      exact ⟨r, hr, hmm⟩
  · rintro ⟨r, hr, hmm⟩
    have he : errs ≠ 0 := fun h0 => (herr.mp h0 r hr) hmm
    exact ⟨errs, by rw [hv, if_neg he]⟩
  · rw [hmiss k]
    constructor
    · rintro ⟨j, r, hj, hd, hk⟩
      refine ⟨r, ?_, hd⟩
      have : k = j := by omega
      rw [this]
      exact hj
    · rintro ⟨r, hk, hd⟩
      exact ⟨k, r, hk, hd, by omega⟩

/-- Witness for C6: one layer record covering the empty range of an
empty file, stored digest absent. -/
theorem c6_witness :
    (∀ r ∈ (⟨1, [⟨0, 0, "Base", none, "t"⟩], "t", none⟩ : TcowIndex).layers,
      r.offset + r.size ≤ ([] : List Nat).length)
    ∧ (((∃ n, (cmd_verify (fun _ => []) [] ⟨1, [⟨0, 0, "Base", none, "t"⟩], "t", none⟩
            true "t").1 = Except.error (VerifyErr.integrity n))
        ↔ ∃ r ∈ (⟨1, [⟨0, 0, "Base", none, "t"⟩], "t", none⟩ : TcowIndex).layers,
            Mismatch [] r)
      ∧ ∃ errs missing, scanFrom [] 0
          (⟨1, [⟨0, 0, "Base", none, "t"⟩], "t", none⟩ : TcowIndex).layers
          = some (errs, missing)
        ∧ (∀ k, k ∈ missing ↔
            ∃ r, (⟨1, [⟨0, 0, "Base", none, "t"⟩], "t", none⟩ : TcowIndex).layers[k]?
              = some r ∧ r.digest = none)) := by
  have hb : ∀ r ∈ (⟨1, [⟨0, 0, "Base", none, "t"⟩], "t", none⟩ : TcowIndex).layers,
      r.offset + r.size ≤ ([] : List Nat).length := by
    intro r hr
    rcases List.mem_cons.mp hr with h | h
    · rw [h]; decide
    · cases h
  exact ⟨hb, c6_verify_integrity (fun _ => []) []
    ⟨1, [⟨0, 0, "Base", none, "t"⟩], "t", none⟩ true "t" hb⟩

/-! ### Claim C5: `cmd_compact` (from `src/main.rs`) -/

/-- Byte-lexicographic order on paths (Rust `str::cmp` used by
`sort_by` in `cmd_compact`). -/
def pathLeB : Path → Path → Bool
  | [], _ => true
  | _ :: _, [] => false
  | a :: as', b :: bs => if a = b then pathLeB as' bs else decide (a.toNat < b.toNat)

def insertSorted {α : Type} (le : α → α → Bool) (x : α) : List α → List α
  | [] => [x]
  | y :: ys => if le x y then x :: y :: ys else y :: insertSorted le x ys

/-- Insertion sort (the model of `Vec::sort_by`; only the fact that it
permutes its input matters to the claims). -/
def sortByB {α : Type} (le : α → α → Bool) (l : List α) : List α :=
  l.foldr (insertSorted le) []

theorem insertSorted_perm {α : Type} (le : α → α → Bool) (x : α) (l : List α) :
    (insertSorted le x l).Perm (x :: l) := by
  induction l with
  | nil => exact List.Perm.refl _
  | cons y ys ih =>
    rw [insertSorted]
    by_cases h : le x y
    · rw [if_pos h]
    · rw [if_neg h]
      exact (ih.cons y).trans (List.Perm.swap x y ys)

theorem sortByB_perm {α : Type} (le : α → α → Bool) (l : List α) :
    (sortByB le l).Perm l := by
  induction l with
  | nil => exact List.Perm.refl _
  | cons x xs ih =>
    exact (insertSorted_perm le x (sortByB le xs)).trans (ih.cons x)

/-- `cmd_compact` from `src/main.rs`: collect the union view, sort it
by path, and `create` a fresh single-Base-layer container from it with
no whiteouts and the source's label. -/
def cmd_compact (ser : List TarEnt → List Nat) (enc : TcowIndex → List Nat)
    (t : TcowFile) (now : String) (ts : Nat) : TcowFile × List Nat :=
  let view := union_view t.layers
  let sorted := sortByB (fun a b => pathLeB a.1 b.1) view
  let entries := sorted.map (fun pe => (pe.1, pe.2.data))
  create ser enc entries [] t.index.label now ts

/-- Parsing a pure content layer (every key canonical and not a
whiteout name) yields only non-whiteout, non-directory entries. -/
theorem parse_content_all {ts : Nat} {entries : List (Path × List Nat)}
    (hgood : ∀ pd ∈ entries,
      normalize_path pd.1 = pd.1 ∧ from_whiteout_tar_path pd.1 = none) :
    ∀ kv ∈ parse_tar_layer (build_tar_layer entries [] ts),
      kv.2.is_whiteout = false ∧ kv.2.is_dir = false := by
  have hbuild : build_tar_layer entries [] ts
      = entries.map (fun pd => (⟨normalize_path pd.1, ts, false, pd.2⟩ : TarEnt)) := by
    unfold build_tar_layer
    rw [List.map_nil, List.append_nil]
  rw [hbuild]
  suffices h : ∀ m : Layer, (∀ kv ∈ m, kv.2.is_whiteout = false ∧ kv.2.is_dir = false) →
      ∀ kv ∈ (entries.map
          (fun pd => (⟨normalize_path pd.1, ts, false, pd.2⟩ : TarEnt))).foldl
        parseEnt m,
        kv.2.is_whiteout = false ∧ kv.2.is_dir = false by
    exact h [] (by intro kv h'; cases h')
  clear hbuild
  induction entries with
  | nil => exact fun m hm => hm
  | cons qd rest ih =>
    intro m hm
    obtain ⟨hq, hfq⟩ := hgood qd (List.mem_cons_self _ _)
    have hgr := fun pd h => hgood pd (List.mem_cons_of_mem _ h)
    have hf : from_whiteout_tar_path
        (normalize_path ((⟨normalize_path qd.1, ts, false, qd.2⟩ : TarEnt).path))
          = none := by
      show from_whiteout_tar_path (normalize_path (normalize_path qd.1)) = none
      rw [normalize_path_idem, hq]
      exact hfq
    rw [List.map_cons, List.foldl_cons]
    apply ih hgr
    rw [parseEnt_content hf]
    intro kv hkv
    rcases mem_insertA hkv with h' | h'
    · rw [h']
      exact ⟨rfl, rfl⟩
    · exact hm kv h'

/-- Union view of a single all-content layer: plain lookup, resolved
at layer index 0. -/
theorem viewLookup_single_content {L : Layer} (hnd : keysNodup L)
    (hall : ∀ kv ∈ L, kv.2.is_whiteout = false ∧ kv.2.is_dir = false) (p : Path) :
    viewLookup [L] p = (alookup L p).map (mkResolved 0) := by
  have hnd1 : ∀ L' ∈ [L], keysNodup L' := by
    intro L' h'
    rcases List.mem_cons.mp h' with h | h
    · rw [h]; exact hnd
    · cases h
  rw [viewLookup_eq_resolveTD hnd1 p]
  show resolveTD p [(0, L)] = _
  cases ha : alookup L p with
  | none =>
    rw [resolveTD_cons_none ha, resolveTD_nil, Option.map_none']
  | some e =>
    obtain ⟨hw, hd⟩ := hall (p, e) (alookup_mem ha)
    rw [resolveTD_cons_file ha hw hd, Option.map_some']

theorem foldl_procEntry_content_length {i : Nat} {L : Layer}
    (hall : ∀ kv ∈ L, kv.2.is_whiteout = false ∧ kv.2.is_dir = false)
    (hnd : keysNodup L) :
    ∀ st : ViewState, st.deleted = [] →
      (∀ k ∈ L.map Prod.fst, alookup st.result k = none) →
      (L.foldl (procEntry i) st).result.length = st.result.length + L.length := by
  induction L with
  | nil =>
    intro st _ _
    rfl
  | cons qe rest ih =>
    intro st hdel hfresh
    rcases qe with ⟨q, e⟩
    obtain ⟨hw, hd⟩ := hall (q, e) (List.mem_cons_self _ _)
    have har := fun kv h => hall kv (List.mem_cons_of_mem _ h)
    unfold keysNodup at hnd
    rw [List.map_cons, List.nodup_cons] at hnd
    have hstep : procEntry i st (q, e)
        = ⟨(q, mkResolved i e) :: st.result, st.deleted⟩ := by
      show (if e.is_whiteout = true then ViewState.mk st.result (q :: st.deleted)
          else if (!(memB q st.deleted) && (alookup st.result q).isNone
              && !e.is_dir) = true
            then ViewState.mk ((q, mkResolved i e) :: st.result) st.deleted
            else st) = _
      rw [if_neg (show ¬(e.is_whiteout = true) by
        rw [hw]; exact Bool.false_ne_true)]
      rw [if_pos (show (!(memB q st.deleted) && (alookup st.result q).isNone
          && !e.is_dir) = true by
        rw [hdel, hfresh q (by rw [List.map_cons]; exact List.mem_cons_self _ _), hd]
        rfl)]
    rw [List.foldl_cons, hstep]
    rw [ih har hnd.2 ⟨(q, mkResolved i e) :: st.result, st.deleted⟩ hdel ?hfresh]
    · show st.result.length + 1 + rest.length = st.result.length + (rest.length + 1)
      omega
    case hfresh =>
      intro k hk
      have hkq : q ≠ k := by
        intro he
        exact hnd.1 (he ▸ hk)
      rw [alookup_cons, if_neg hkq]
      exact hfresh k (by rw [List.map_cons]; exact List.mem_cons_of_mem _ hk)

/-- The union view of a single all-content layer has exactly one entry
per layer entry. -/
theorem union_view_single_content_length {L : Layer} (hnd : keysNodup L)
    (hall : ∀ kv ∈ L, kv.2.is_whiteout = false ∧ kv.2.is_dir = false) :
    (union_view [L]).length = L.length := by
  show ((L.foldl (procEntry 0) ⟨[], []⟩).result).length = L.length
  rw [foldl_procEntry_content_length hall hnd ⟨[], []⟩ rfl
    (by intro k _; rfl)]
  show 0 + L.length = L.length
  omega

theorem foldl_parseEnt_content_length {ts : Nat} {entries : List (Path × List Nat)}
    (hgood : ∀ pd ∈ entries,
      normalize_path pd.1 = pd.1 ∧ from_whiteout_tar_path pd.1 = none)
    (hnd : (entries.map Prod.fst).Nodup) :
    ∀ m : Layer, (∀ k ∈ entries.map Prod.fst, alookup m k = none) →
      ((entries.map
          (fun pd => (⟨normalize_path pd.1, ts, false, pd.2⟩ : TarEnt))).foldl
        parseEnt m).length = m.length + entries.length := by
  induction entries with
  | nil =>
    intro m _
    rfl
  | cons qd rest ih =>
    intro m hfresh
    obtain ⟨hq, hfq⟩ := hgood qd (List.mem_cons_self _ _)
    have hgr := fun pd h => hgood pd (List.mem_cons_of_mem _ h)
    rw [List.map_cons, List.nodup_cons] at hnd
    have hf : from_whiteout_tar_path
        (normalize_path ((⟨normalize_path qd.1, ts, false, qd.2⟩ : TarEnt).path))
          = none := by
      show from_whiteout_tar_path (normalize_path (normalize_path qd.1)) = none
      rw [normalize_path_idem, hq]
      exact hfq
    have hqm : alookup m qd.1 = none :=
      hfresh qd.1 (by rw [List.map_cons]; exact List.mem_cons_self _ _)
    have hins : insertA qd.1 (⟨qd.2, ts, false, false⟩ : RawEntry) m
        = (qd.1, (⟨qd.2, ts, false, false⟩ : RawEntry)) :: m := by
      rw [insertA, eraseKey_of_not_mem (alookup_eq_none_iff.mp hqm)]
    have hstep : parseEnt m (⟨normalize_path qd.1, ts, false, qd.2⟩ : TarEnt)
        = (qd.1, (⟨qd.2, ts, false, false⟩ : RawEntry)) :: m := by
      rw [parseEnt_content hf]
      show insertA (normalize_path (normalize_path qd.1)) _ _ = _
      rw [normalize_path_idem, hq, hins]
    rw [List.map_cons, List.foldl_cons, hstep,
      ih hgr hnd.2 ((qd.1, (⟨qd.2, ts, false, false⟩ : RawEntry)) :: m) ?hfresh]
    · show m.length + 1 + rest.length = m.length + (rest.length + 1)
      omega
    case hfresh =>
      intro k hk
      have hkq : qd.1 ≠ k := by
        intro he
        exact hnd.1 (he ▸ hk)
      rw [alookup_cons, if_neg hkq]
      exact hfresh k (by rw [List.map_cons]; exact List.mem_cons_of_mem _ hk)

theorem mem_of_getElem? {α : Type} {X : List α} {n : Nat} {a : α}
    (h : X[n]? = some a) : a ∈ X := by
  induction X generalizing n with
  | nil => simp at h
  | cons x xs ih =>
    cases n with
    | zero =>
      have : x = a := by simpa using h
      rw [← this]
      exact List.mem_cons_self _ _
    | succ m =>
      exact List.mem_cons_of_mem _ (ih (by simpa using h))

theorem map_fst_map_data (l : List (Path × ResolvedEntry)) :
    (l.map (fun pe => (pe.1, pe.2.data))).map Prod.fst = l.map Prod.fst := by
  induction l with
  | nil => rfl
  | cons pe rest ih =>
    rw [List.map_cons, List.map_cons, List.map_cons, ih]

theorem alookup_map_data (m : List (Path × ResolvedEntry)) (p : Path) :
    alookup (m.map (fun pe => (pe.1, pe.2.data))) p
      = (alookup m p).map (fun r => r.data) := by
  induction m with
  | nil => rfl
  | cons pe rest ih =>
    rw [List.map_cons, alookup_cons, alookup_cons]
    by_cases hk : pe.1 = p
    · rw [if_pos hk, if_pos hk, Option.map_some']
    · rw [if_neg hk, if_neg hk, ih]

/-- A container whose layer maps all came from `parse_tar_layer`
(i.e. any container produced by `open`, `create` or `append_delta`). -/
def Opened (t : TcowFile) : Prop :=
  ∀ L ∈ t.layers, ∃ es, L = parse_tar_layer es

theorem opened_keysNodup {t : TcowFile} (hop : Opened t) :
    ∀ L ∈ t.layers, keysNodup L := by
  intro L h
  obtain ⟨es, he⟩ := hop L h
  rw [he]
  exact parse_keys_nodup es

theorem opened_view_keys_good {t : TcowFile} (hop : Opened t) :
    ∀ pr ∈ union_view t.layers,
      normalize_path pr.1 = pr.1 ∧ from_whiteout_tar_path pr.1 = none := by
  intro pr hpr
  rcases pr with ⟨p0, r0⟩
  have hlk2 : viewLookup t.layers p0 = some r0 :=
    mem_alookup_of_nodup (union_view_keys_nodup t.layers) hpr
  rw [viewLookup_eq_resolveTD (opened_keysNodup hop) p0] at hlk2
  have hls : ∀ il ∈ (enumFromL 0 t.layers).reverse, t.layers[il.1]? = some il.2 := by
    intro il hil
    rw [List.mem_reverse] at hil
    obtain ⟨m, hm1, hm2⟩ := mem_enumFromL hil
    rw [hm1, Nat.zero_add]
    exact hm2
  obtain ⟨_, _, L, e, hL, ha, _, _, _, _⟩ := resolveTD_sound hls hlk2
  obtain ⟨es, he⟩ := hop L (mem_of_getElem? hL)
  have hmem := alookup_mem ha
  rw [he] at hmem
  exact parse_keys_good es (p0, e) hmem

/-- The master equation for `cmd_compact`: the compacted container's
view is the source view with every entry re-stamped to layer 0 and the
compaction timestamp, bytes unchanged. -/
theorem compact_view_eq {t : TcowFile} (hop : Opened t)
    (ser : List TarEnt → List Nat) (enc : TcowIndex → List Nat)
    (now : String) (ts : Nat) (p : Path) :
    viewLookup (cmd_compact ser enc t now ts).1.layers p
      = (viewLookup t.layers p).map
          (fun r => (⟨r.data, ts, 0, r.data.length⟩ : ResolvedEntry)) := by
  have hvnd := union_view_keys_nodup t.layers
  have hperm := sortByB_perm (fun a b => pathLeB a.1 b.1) (union_view t.layers)
  have hsnd : ((sortByB (fun a b => pathLeB a.1 b.1)
      (union_view t.layers)).map Prod.fst).Nodup :=
    ((hperm.map Prod.fst).nodup_iff).mpr hvnd
  have hend : (((sortByB (fun a b => pathLeB a.1 b.1)
      (union_view t.layers)).map (fun pe => (pe.1, pe.2.data))).map Prod.fst).Nodup := by
    rw [map_fst_map_data]
    exact hsnd
  have hge : ∀ pd ∈ (sortByB (fun a b => pathLeB a.1 b.1)
      (union_view t.layers)).map (fun pe => (pe.1, pe.2.data)),
      normalize_path pd.1 = pd.1 ∧ from_whiteout_tar_path pd.1 = none := by
    intro pd hpd
    obtain ⟨pe, hpe, hpd2⟩ := List.mem_map.mp hpd
    have hvm : pe ∈ union_view t.layers := hperm.mem_iff.mp hpe
    have hg := opened_view_keys_good hop pe hvm
    rw [← hpd2]
    exact hg
  have hbuild : build_tar_layer ((sortByB (fun a b => pathLeB a.1 b.1)
      (union_view t.layers)).map (fun pe => (pe.1, pe.2.data))) [] ts
      = (((sortByB (fun a b => pathLeB a.1 b.1)
          (union_view t.layers)).map (fun pe => (pe.1, pe.2.data))).map
        (fun pd => (⟨normalize_path pd.1, ts, false, pd.2⟩ : TarEnt))) := by
    unfold build_tar_layer
    rw [List.map_nil, List.append_nil]
  have hAmap : alookup (parse_tar_layer (build_tar_layer
      ((sortByB (fun a b => pathLeB a.1 b.1)
        (union_view t.layers)).map (fun pe => (pe.1, pe.2.data))) [] ts)) p
      = (alookup ((sortByB (fun a b => pathLeB a.1 b.1)
          (union_view t.layers)).map (fun pe => (pe.1, pe.2.data))) p).map
        (fun d => (⟨d, ts, false, false⟩ : RawEntry)) := by
    have hA := foldl_parseEnt_content ts hge hend ([] : Layer) p
    unfold parse_tar_layer
    rw [hbuild]
    cases he : alookup ((sortByB (fun a b => pathLeB a.1 b.1)
        (union_view t.layers)).map (fun pe => (pe.1, pe.2.data))) p with
    | some d =>
      rw [Option.map_some']
      exact hA.1 d he
    | none =>
      rw [Option.map_none', hA.2 he]
      rfl
  have hsingle : viewLookup [parse_tar_layer (build_tar_layer
      ((sortByB (fun a b => pathLeB a.1 b.1)
        (union_view t.layers)).map (fun pe => (pe.1, pe.2.data))) [] ts)] p
      = (alookup (parse_tar_layer (build_tar_layer
          ((sortByB (fun a b => pathLeB a.1 b.1)
            (union_view t.layers)).map (fun pe => (pe.1, pe.2.data))) [] ts)) p).map
        (mkResolved 0) :=
    viewLookup_single_content (parse_keys_nodup _) (parse_content_all hge) p
  show viewLookup [parse_tar_layer (build_tar_layer
      ((sortByB (fun a b => pathLeB a.1 b.1)
        (union_view t.layers)).map (fun pe => (pe.1, pe.2.data))) [] ts)] p = _
  rw [hsingle, hAmap, alookup_map_data, alookup_of_perm hsnd hperm p]
  show ((alookup (union_view t.layers) p).map (fun r => r.data)
      |>.map (fun d => (⟨d, ts, false, false⟩ : RawEntry))
      |>.map (mkResolved 0))
    = (alookup (union_view t.layers) p).map
        (fun r => (⟨r.data, ts, 0, r.data.length⟩ : ResolvedEntry))
  cases alookup (union_view t.layers) p with
  | none => rfl
  | some r => rfl

/-- The entry list `cmd_compact` hands to `create`: the union view
sorted by path, mapped to (path, bytes). -/
def compactEntries (t : TcowFile) : List (Path × List Nat) :=
  (sortByB (fun a b => pathLeB a.1 b.1) (union_view t.layers)).map
    (fun pe => (pe.1, pe.2.data))

theorem compactEntries_good {t : TcowFile} (hop : Opened t) :
    ∀ pd ∈ compactEntries t,
      normalize_path pd.1 = pd.1 ∧ from_whiteout_tar_path pd.1 = none := by
  intro pd hpd
  obtain ⟨pe, hpe, hpd2⟩ := List.mem_map.mp hpd
  have hvm : pe ∈ union_view t.layers :=
    (sortByB_perm (fun a b => pathLeB a.1 b.1) (union_view t.layers)).mem_iff.mp hpe
  have hg := opened_view_keys_good hop pe hvm
  rw [← hpd2]
  exact hg

theorem compactEntries_keys_nodup (t : TcowFile) :
    ((compactEntries t).map Prod.fst).Nodup := by
  unfold compactEntries
  rw [map_fst_map_data]
  exact (((sortByB_perm (fun a b => pathLeB a.1 b.1)
    (union_view t.layers)).map Prod.fst).nodup_iff).mpr
    (union_view_keys_nodup t.layers)

/-- C5: compaction yields a container with exactly one layer of kind
`"Base"` holding no whiteout entries, and its union view has the same
`visible_count` and the same (path, bytes) pairs as the source's. -/
theorem c5_compact {t : TcowFile} (hop : Opened t)
    (ser : List TarEnt → List Nat) (enc : TcowIndex → List Nat)
    (now : String) (ts : Nat) :
    (cmd_compact ser enc t now ts).1.index.layers.length = 1
    ∧ (∀ r ∈ (cmd_compact ser enc t now ts).1.index.layers, r.kind = "Base")
    ∧ (∀ L ∈ (cmd_compact ser enc t now ts).1.layers, ∀ kv ∈ L,
        kv.2.is_whiteout = false)
    ∧ visible_count (cmd_compact ser enc t now ts).1.layers
      = visible_count t.layers
    ∧ ∀ p d, (∃ r, viewLookup (cmd_compact ser enc t now ts).1.layers p
          = some r ∧ r.data = d)
        ↔ (∃ r, viewLookup t.layers p = some r ∧ r.data = d) := by
  have hge := compactEntries_good hop
  have hend := compactEntries_keys_nodup t
  have hbuild : build_tar_layer (compactEntries t) [] ts
      = (compactEntries t).map
        (fun pd => (⟨normalize_path pd.1, ts, false, pd.2⟩ : TarEnt)) := by
    unfold build_tar_layer
    rw [List.map_nil, List.append_nil]
  refine ⟨rfl, ?_, ?_, ?_, ?_⟩
  · intro r hr
    rcases List.mem_cons.mp hr with h | h
    · rw [h]
    · cases h
  · intro L hL kv hkv
    have hL1 : L ∈ [parse_tar_layer (build_tar_layer (compactEntries t) [] ts)] := hL
    rcases List.mem_cons.mp hL1 with h | h
    · rw [h] at hkv
      exact (parse_content_all hge kv hkv).1
    · cases h
  · show (union_view [parse_tar_layer
        (build_tar_layer (compactEntries t) [] ts)]).length
      = (union_view t.layers).length
    rw [union_view_single_content_length (parse_keys_nodup _)
      (parse_content_all hge)]
    have hplen : (parse_tar_layer
        (build_tar_layer (compactEntries t) [] ts)).length
        = (compactEntries t).length := by
      unfold parse_tar_layer
      rw [hbuild, foldl_parseEnt_content_length hge hend [] (by intro k _; rfl)]
      show 0 + (compactEntries t).length = (compactEntries t).length
      omega
    rw [hplen]
    unfold compactEntries
    rw [List.length_map]
    exact (sortByB_perm (fun a b => pathLeB a.1 b.1)
      (union_view t.layers)).length_eq
  · intro p d
    rw [compact_view_eq hop ser enc now ts p]
    constructor
    · rintro ⟨r, hr, hd⟩
      cases hv : viewLookup t.layers p with
      | none =>
        rw [hv] at hr
        cases hr
      | some r0 =>
        rw [hv, Option.map_some'] at hr
        have heq := Option.some.inj hr
        refine ⟨r0, rfl, ?_⟩
        rw [← hd, ← heq]
    · rintro ⟨r0, hr0, hd⟩
      rw [hr0, Option.map_some']
      exact ⟨⟨r0.data, ts, 0, r0.data.length⟩, rfl, hd⟩

/-- Witness for C5: compacting a one-layer container holding a single
regular file. -/
theorem c5_witness :
    Opened ⟨⟨1, [], "t0", none⟩, [parse_tar_layer [⟨['a'], 3, false, [7]⟩]]⟩
    ∧ ((cmd_compact (fun _ => []) (fun _ => [])
          ⟨⟨1, [], "t0", none⟩, [parse_tar_layer [⟨['a'], 3, false, [7]⟩]]⟩
          "t1" 9).1.index.layers.length = 1
      ∧ (∀ r ∈ (cmd_compact (fun _ => []) (fun _ => [])
          ⟨⟨1, [], "t0", none⟩, [parse_tar_layer [⟨['a'], 3, false, [7]⟩]]⟩
          "t1" 9).1.index.layers, r.kind = "Base")
      ∧ (∀ L ∈ (cmd_compact (fun _ => []) (fun _ => [])
          ⟨⟨1, [], "t0", none⟩, [parse_tar_layer [⟨['a'], 3, false, [7]⟩]]⟩
          "t1" 9).1.layers, ∀ kv ∈ L, kv.2.is_whiteout = false)
      ∧ visible_count (cmd_compact (fun _ => []) (fun _ => [])
          ⟨⟨1, [], "t0", none⟩, [parse_tar_layer [⟨['a'], 3, false, [7]⟩]]⟩
          "t1" 9).1.layers
        = visible_count (⟨⟨1, [], "t0", none⟩,
            [parse_tar_layer [⟨['a'], 3, false, [7]⟩]]⟩ : TcowFile).layers
      ∧ ∀ p d, (∃ r, viewLookup (cmd_compact (fun _ => []) (fun _ => [])
            ⟨⟨1, [], "t0", none⟩, [parse_tar_layer [⟨['a'], 3, false, [7]⟩]]⟩
            "t1" 9).1.layers p = some r ∧ r.data = d)
          ↔ (∃ r, viewLookup (⟨⟨1, [], "t0", none⟩,
              [parse_tar_layer [⟨['a'], 3, false, [7]⟩]]⟩ : TcowFile).layers p
            = some r ∧ r.data = d)) := by
  have hop : Opened ⟨⟨1, [], "t0", none⟩,
      [parse_tar_layer [⟨['a'], 3, false, [7]⟩]]⟩ := by
    intro L hL
    rcases List.mem_cons.mp hL with h | h
    · exact ⟨[⟨['a'], 3, false, [7]⟩], h⟩
    · cases h
  exact ⟨hop, c5_compact hop (fun _ => []) (fun _ => []) "t1" 9⟩
